import Mathlib

/-!
The dgsh compatibility detector (`dgsh_util.c`).

A shallow embedding of `dgsh_util.c` and theorems about it.

Memory model.

The file view handed to the scanners is a finite byte sequence `data : List Byte`;
a C pointer into the mapping is the offset of the byte it points at.  Every read
of the C code is a read of the embedding.  A read at an offset that is not below
`data.length` has no defined value: the function that performs it yields `none`
(an out-of-bounds read), and so does every caller.  Hence

* `f data = some v`  means: `f` returns `v` and every byte it read lies inside `data`;
* `f data = none`    means: `f` reads a byte at an index at or past `data.length`.

Verdicts (`int` used as a truth value in C) are `Bool`.  Bytes are natural numbers; the
theorems hold for every list of them, in particular for those with entries below 256.
-/

set_option maxRecDepth 100000

namespace Dgsh

/-- A byte of the mapped file. -/
abbrev Byte := Nat

/-- The bytes of a C string literal, without its NUL terminator (ASCII only). -/
def bytesOf (s : String) : List Byte := s.toList.map Char.toNat

/-! ## Constants of the source -/

/-- The macro `DGSH_NAME`, defined as `"DSpinellis/dgsh"` (without the terminator). -/
def DGSH_NAME : List Byte := bytesOf "DSpinellis/dgsh"

/-- The value of `sizeof(DGSH_NAME)`: the literal and its NUL terminator, 16 bytes. -/
def sizeof_DGSH_NAME : Nat := DGSH_NAME.length + 1

/-- The macro `MAX_LINE_LEN`, defined as 1024. -/
def MAX_LINE_LEN : Nat := 1024

/-- Number of values of a `size_t` (LP64). -/
def SIZE_T_RANGE : Nat := 2 ^ 64

/-! ## C library functions used by the source -/

/-- The `n` bytes of the mapping at offset `off`; `none` when they are not all inside it. -/
def readBytes (data : List Byte) (off n : Nat) : Option (List Byte) :=
  if off + n ≤ data.length then some ((data.drop off).take n) else none

/-- Lexicographic comparison of two byte strings, as `memcmp` reports it:
`0` when equal, the sign of the first difference otherwise. -/
def cmpBytes : List Byte → List Byte → Int
  | [], [] => 0
  | [], _ :: _ => -1
  | _ :: _, [] => 1
  | a :: as, b :: bs => if a = b then cmpBytes as bs else if a < b then -1 else 1

/-- The call `memcmp(data + off, lit, n)` where `lit` is a literal of at least `n` bytes.
All `n` bytes of the mapping are read. -/
def memcmp (data : List Byte) (off : Nat) (lit : List Byte) (n : Nat) : Option Int :=
  match readBytes data off n with
  | none => none
  | some bs => some (cmpBytes bs (lit.take n))

/-- The call `memchr(data + off, c, n)`: the offset of the first byte equal to `c` among the
`n` bytes at `off` (`some (some p)`), or `NULL` (`some none`).  Bytes are read in
order and the scan stops at the first match. -/
def memchr (data : List Byte) (off : Nat) (c : Byte) : Nat → Option (Option Nat)
  | 0 => some none
  | n + 1 =>
    match data[off]? with
    | none => none
    | some b => if b = c then some (some off) else memchr data (off + 1) c n

/-- The call `strcmp(data + s1, lit)` where `lit` is a string literal without NUL inside
(given without its terminator).  Bytes are read in order up to the first
difference or the common terminator. -/
def strcmp (data : List Byte) (s1 : Nat) : List Byte → Option Int
  | [] =>
    match data[s1]? with
    | none => none
    | some c => some (if c = 0 then 0 else 1)
  | b :: rest =>
    match data[s1]? with
    | none => none
    | some c =>
      if c = b then strcmp data (s1 + 1) rest
      else some (if c < b then -1 else 1)

/-- Subtraction of `size_t` values, which wraps around. -/
def size_t_sub (a b : Nat) : Nat := (a + SIZE_T_RANGE - b % SIZE_T_RANGE) % SIZE_T_RANGE

/-! ## Script scanner -/

/-- The function `linenstr(haystack, needle, hlen)`, with `haystack` the offset of the
pointer into `data`.  Result `some (some p)`: pointer to offset `p` returned;
`some none`: `NULL` returned.

```c
size_t nlen = strlen(needle);
while (nlen < hlen-- && *haystack != '\n') {
    if (memcmp(haystack, needle, nlen) == 0) return haystack;
    haystack++;
}
return (NULL);
```
The recursion is on `hlen`, which the loop test decrements each time it is
evaluated; when `hlen` is `0` the test `nlen < hlen` is false and the loop ends. -/
def linenstr (data : List Byte) (haystack : Nat) (needle : List Byte) :
    Nat → Option (Option Nat)
  | 0 => some none
  | hlen + 1 =>
    if needle.length < hlen + 1 then
      match data[haystack]? with
      | none => none
      | some c =>
        if c ≠ 10 then
          match memcmp data haystack needle needle.length with
          | none => none
          | some r =>
            if r = 0 then some (some haystack)
            else linenstr data (haystack + 1) needle hlen
        else some none
    else some none

/-- The array `const char magic[] = "#!dgsh";` (without the terminator). -/
def magic : List Byte := bytesOf "#!dgsh"

/-- The value of `sizeof(magic)`: 7, the terminator included. -/
def sizeof_magic : Nat := magic.length + 1

/-- The function `is_magic_script_dgsh_program(data, len)`.

```c
const char *line2 = memchr(data, '\n', len);
if (line2 == NULL) return 0;
len -= ++line2 - data;
if (len < sizeof(magic)) return 0;
return (memcmp(line2, magic, sizeof(magic) - 1) == 0);
``` -/
def is_magic_script_dgsh_program (data : List Byte) (len : Nat) : Option Bool :=
  match memchr data 0 10 len with
  | none => none
  | some none => some false
  | some (some p) =>
    let line2 := p + 1
    let len := size_t_sub len (line2 - 0)
    if len < sizeof_magic then some false
    else
      match memcmp data line2 magic (sizeof_magic - 1) with
      | none => none
      | some r => some (r == 0)

/-- One operand of the `||` chain of `is_script_dgsh_program`: is the pointer
returned by `linenstr(data, needle, len)` non-null. -/
def linenstr_found (data : List Byte) (needle : List Byte) (len : Nat) : Option Bool :=
  match linenstr data 0 needle len with
  | none => none
  | some r => some r.isSome

/-- The function `is_script_dgsh_program(data, len)`.

```c
len = len < MAX_LINE_LEN ? len : MAX_LINE_LEN;
return (linenstr(data, "dgsh-wrap", len) || linenstr(data, "--dgsh", len) ||
        linenstr(data, "env dgsh", len) || is_magic_script_dgsh_program(data, len));
```
The operands of `||` are evaluated left to right until one is true. -/
def is_script_dgsh_program (data : List Byte) (len : Nat) : Option Bool :=
  let len := if len < MAX_LINE_LEN then len else MAX_LINE_LEN
  match linenstr_found data (bytesOf "dgsh-wrap") len with
  | none => none
  | some true => some true
  | some false =>
    match linenstr_found data (bytesOf "--dgsh") len with
    | none => none
    | some true => some true
    | some false =>
      match linenstr_found data (bytesOf "env dgsh") len with
      | none => none
      | some true => some true
      | some false => is_magic_script_dgsh_program data len

/-! ## ELF layout

`Elf_Ehdr`, `Elf_Shdr` and `Elf_Nhdr` come from `<elf.h>`.  The source selects the
64-bit structures when `__ELF_WORD_SIZE == 64` and the 32-bit ones otherwise, and
reads the fields in the byte order of the host.  Both choices are parameters of
the embedding. -/

/-- Which of the two `typedef` groups of the source is compiled in. -/
inductive ElfClass
  | elf32
  | elf64
  deriving DecidableEq

/-- Compilation target: the ELF class of the `typedef`s and the host byte order. -/
structure Target where
  cls : ElfClass
  bigEndian : Bool
  deriving DecidableEq

/-- Value of a little-endian unsigned integer. -/
def decodeLE : List Byte → Nat
  | [] => 0
  | b :: bs => b + 256 * decodeLE bs

/-- Value of an unsigned integer field in host byte order. -/
def decodeUInt (t : Target) (bs : List Byte) : Nat :=
  if t.bigEndian then decodeLE bs.reverse else decodeLE bs

/-- Value of the `w`-byte field at offset `off`, for offsets known to be inside the mapping. -/
def getField (t : Target) (data : List Byte) (off w : Nat) : Nat :=
  decodeUInt t ((data.drop off).take w)

/-- Read of the `w`-byte field at offset `off`; `none` when it is not inside the mapping. -/
def readField (t : Target) (data : List Byte) (off w : Nat) : Option Nat :=
  match readBytes data off w with
  | none => none
  | some bs => some (decodeUInt t bs)

/-- The value of `sizeof(Elf_Ehdr)`. -/
def sizeof_Ehdr : ElfClass → Nat
  | .elf32 => 52
  | .elf64 => 64

/-- The value of `sizeof(Elf_Shdr)`. -/
def sizeof_Shdr : ElfClass → Nat
  | .elf32 => 40
  | .elf64 => 64

/-- The value of `sizeof(Elf_Nhdr)`: three 32-bit words in both classes. -/
def sizeof_Nhdr : Nat := 12

/-- Width of `Elf_Off` and of the `sh_size` word. -/
def sizeof_Off : ElfClass → Nat
  | .elf32 => 4
  | .elf64 => 8

/-- The value of `offsetof(Elf_Ehdr, e_shoff)`. -/
def offsetof_e_shoff : ElfClass → Nat
  | .elf32 => 32
  | .elf64 => 40

/-- The value of `offsetof(Elf_Ehdr, e_shnum)`, a 16-bit field. -/
def offsetof_e_shnum : ElfClass → Nat
  | .elf32 => 48
  | .elf64 => 60

/-- The value of `offsetof(Elf_Ehdr, e_shstrndx)`, a 16-bit field, the last of the header. -/
def offsetof_e_shstrndx : ElfClass → Nat
  | .elf32 => 50
  | .elf64 => 62

/-- The value of `offsetof(Elf_Shdr, sh_offset)`; `sh_name` is the 32-bit field at offset 0. -/
def offsetof_sh_offset : ElfClass → Nat
  | .elf32 => 16
  | .elf64 => 24

/-- The value of `offsetof(Elf_Shdr, sh_size)`. -/
def offsetof_sh_size : ElfClass → Nat
  | .elf32 => 20
  | .elf64 => 32

/-! ## Binary note scanner -/

/-- The section name `".note.ident"` (without the terminator). -/
def NOTE_IDENT : List Byte := bytesOf ".note.ident"

/-- Body of the `for` loop of `has_dgsh_section` at index `i`: `some true` when
`return 1` is reached, `some false` when the iteration ends without it.

```c
if (strcmp(&strTab[shdr[i].sh_name], ".note.ident")) continue;
note = (Elf_Nhdr *)(data + shdr[i].sh_offset);
if (note->n_namesz == sizeof(DGSH_NAME) && memcmp(note + 1, DGSH_NAME, sizeof(DGSH_NAME)) == 0)
    return 1;
``` -/
def has_dgsh_section_body (t : Target) (data : List Byte) (shdr strTab i : Nat) : Option Bool :=
  let entry := shdr + i * sizeof_Shdr t.cls
  match readField t data entry 4 with
  | none => none
  | some sh_name =>
    match strcmp data (strTab + sh_name) NOTE_IDENT with
    | none => none
    | some c =>
      if c ≠ 0 then some false
      else
        match readField t data (entry + offsetof_sh_offset t.cls) (sizeof_Off t.cls) with
        | none => none
        | some sh_offset =>
          let note := sh_offset
          match readField t data note 4 with
          | none => none
          | some n_namesz =>
            if n_namesz = sizeof_DGSH_NAME then
              match memcmp data (note + sizeof_Nhdr) (DGSH_NAME ++ [0]) sizeof_DGSH_NAME with
              | none => none
              | some r => some (r == 0)
            else some false

/-- The `for (i = 0; i < shNum; i++)` loop of `has_dgsh_section`, from index `i`
with `n` iterations left. -/
def has_dgsh_section_loop (t : Target) (data : List Byte) (shdr strTab : Nat) :
    Nat → Nat → Option Bool
  | _, 0 => some false
  | i, n + 1 =>
    match has_dgsh_section_body t data shdr strTab i with
    | none => none
    | some true => some true
    | some false => has_dgsh_section_loop t data shdr strTab (i + 1) n

/-- The function `has_dgsh_section(shdr, strTab, shNum, data)`; `shdr` and `strTab`
are offsets into `data`. -/
def has_dgsh_section (t : Target) (shdr strTab shNum : Nat) (data : List Byte) : Option Bool :=
  has_dgsh_section_loop t data shdr strTab 0 shNum

/-- The function `is_elf_dgsh_program(data)`.  It receives no length.

```c
elf = (Elf_Ehdr *)data;
shdr = (Elf_Shdr *)(data + elf->e_shoff);
strtab = (char *)(data + shdr[elf->e_shstrndx].sh_offset);
return has_dgsh_section(shdr, strtab, elf->e_shnum, (uint8_t*)data);
``` -/
def is_elf_dgsh_program (t : Target) (data : List Byte) : Option Bool :=
  match readField t data (offsetof_e_shoff t.cls) (sizeof_Off t.cls) with
  | none => none
  | some e_shoff =>
    let shdr := e_shoff
    match readField t data (offsetof_e_shstrndx t.cls) 2 with
    | none => none
    | some e_shstrndx =>
      match readField t data (shdr + e_shstrndx * sizeof_Shdr t.cls + offsetof_sh_offset t.cls)
          (sizeof_Off t.cls) with
      | none => none
      | some strtab =>
        match readField t data (offsetof_e_shnum t.cls) 2 with
        | none => none
        | some e_shnum => has_dgsh_section t shdr strtab e_shnum data

/-! ## Entry point -/

/-- Result of `mmap(NULL, file_size, PROT_READ, MAP_SHARED, fd, 0)`: the mapped
bytes, or `MAP_FAILED`.  `mmap` does not return `NULL`. -/
inductive MapResult
  | MAP_FAILED
  | mapped (view : List Byte)

/-- The call `mmap` on an open file: mapping a length of zero fails (`EINVAL`). -/
def mmap (file : List Byte) : MapResult :=
  if file.length = 0 then .MAP_FAILED else .mapped file

/-- The bytes readable through the pointer `mmap` returned: none through `MAP_FAILED`. -/
def MapResult.view : MapResult → List Byte
  | .MAP_FAILED => []
  | .mapped v => v

/-- The function `is_dgsh_program(path)`; `file` is what `path` designates: `none`
when `open` fails, the file's bytes otherwise.

```c
fd = open(path, O_RDONLY);
if (fd == -1) return 0;
file_size = lseek(fd, 0, SEEK_END);
data = mmap(NULL, file_size, PROT_READ, MAP_SHARED, fd, 0);
close(fd);
if (data == NULL) return 0;
if (memcmp(data, "#!", 2) == 0) r = is_script_dgsh_program(data, file_size);
else r = is_elf_dgsh_program(data);
munmap(data, file_size);
return r;
```
The test `data == NULL` is never true, since `mmap` reports failure by `MAP_FAILED`.
The diagnostic line written to `stderr` before `return r` is left out. -/
def is_dgsh_program (t : Target) (file : Option (List Byte)) : Option Bool :=
  match file with
  | none => some false
  | some bytes =>
    let file_size := bytes.length
    let data := (mmap bytes).view
    match memcmp data 0 (bytesOf "#!") 2 with
    | none => none
    | some r =>
      if r = 0 then is_script_dgsh_program data file_size
      else is_elf_dgsh_program t data

/-! ## Vocabulary of the claims about ELF files

The fields below are decoded with `getField`, which is total; they are the values the
code reads whenever the words lie inside the view. -/

/-- Header field `e_shoff`: offset of the section-header table. -/
def e_shoff (t : Target) (data : List Byte) : Nat :=
  getField t data (offsetof_e_shoff t.cls) (sizeof_Off t.cls)

/-- Header field `e_shnum`: number of section-header entries. -/
def e_shnum (t : Target) (data : List Byte) : Nat :=
  getField t data (offsetof_e_shnum t.cls) 2

/-- Header field `e_shstrndx`: index of the section-name string table. -/
def e_shstrndx (t : Target) (data : List Byte) : Nat :=
  getField t data (offsetof_e_shstrndx t.cls) 2

/-- Offset in the file of section-header entry `i`, that is `&shdr[i]`. -/
def shdr_entry (t : Target) (data : List Byte) (i : Nat) : Nat :=
  e_shoff t data + i * sizeof_Shdr t.cls

/-- Field `sh_name` of entry `i`. -/
def sh_name (t : Target) (data : List Byte) (i : Nat) : Nat :=
  getField t data (shdr_entry t data i) 4

/-- Field `sh_offset` of entry `i`. -/
def sh_offset (t : Target) (data : List Byte) (i : Nat) : Nat :=
  getField t data (shdr_entry t data i + offsetof_sh_offset t.cls) (sizeof_Off t.cls)

/-- Field `sh_size` of entry `i`. -/
def sh_size (t : Target) (data : List Byte) (i : Nat) : Nat :=
  getField t data (shdr_entry t data i + offsetof_sh_size t.cls) (sizeof_Off t.cls)

/-- Offset in the file of the section-name string table. -/
def strtab_offset (t : Target) (data : List Byte) : Nat :=
  sh_offset t data (e_shstrndx t data)

/-- Size of the section-name string table. -/
def strtab_size (t : Target) (data : List Byte) : Nat :=
  sh_size t data (e_shstrndx t data)

/-- Field `n_namesz` of the first note record of section `i`. -/
def n_namesz (t : Target) (data : List Byte) (i : Nat) : Nat :=
  getField t data (sh_offset t data i) 4

/-- Section `i` is named `.note.ident`: the bytes at its name offset in the string
table are `.note.ident` and the NUL terminator. -/
def namedNoteIdent (t : Target) (data : List Byte) (i : Nat) : Prop :=
  (data.drop (strtab_offset t data + sh_name t data i)).take (NOTE_IDENT.length + 1)
    = NOTE_IDENT ++ [0]

instance (t : Target) (data : List Byte) (i : Nat) : Decidable (namedNoteIdent t data i) := by
  unfold namedNoteIdent; infer_instance

/-- The content of section `i` starts with a note header with `n_namesz = 16`,
immediately followed by the 16 bytes of `DSpinellis/dgsh` and its NUL terminator. -/
def noteMatches (t : Target) (data : List Byte) (i : Nat) : Prop :=
  n_namesz t data i = 16 ∧
  (data.drop (sh_offset t data i + sizeof_Nhdr)).take 16 = DGSH_NAME ++ [0]

instance (t : Target) (data : List Byte) (i : Nat) : Decidable (noteMatches t data i) := by
  unfold noteMatches; infer_instance

/-- A well-formed ELF file, as the target decodes it: the magic number, and the header,
the section-header table, the section-name string table with every section name
NUL-terminated inside it, and the content of every section named `.note.ident`, which
holds a note header and the note's name, all inside the file. -/
structure WellFormedElf (t : Target) (data : List Byte) : Prop where
  ident : data.take 4 = [127, 69, 76, 70]
  header : sizeof_Ehdr t.cls ≤ data.length
  table : e_shoff t data + e_shnum t data * sizeof_Shdr t.cls ≤ data.length
  strndx : e_shstrndx t data < e_shnum t data
  strtab : strtab_offset t data + strtab_size t data ≤ data.length
  names : ∀ i, i < e_shnum t data →
    ∃ e, e < strtab_size t data ∧ sh_name t data i ≤ e ∧
      data[strtab_offset t data + e]? = some 0
  notes : ∀ i, i < e_shnum t data → namedNoteIdent t data i →
    sh_offset t data i + sh_size t data i ≤ data.length ∧
    sizeof_Nhdr + n_namesz t data i ≤ sh_size t data i

/-! ## Sample files -/

/-- Little-endian encoding of `n` on `w` bytes. -/
def le (w n : Nat) : List Byte := (List.range w).map (fun k => n / 256 ^ k % 256)

/-- A run of `n` zero bytes. -/
def zeros (n : Nat) : List Byte := List.replicate n 0

/-- A 32-bit little-endian ELF header with the given `e_shoff`, `e_shnum`, `e_shstrndx`. -/
def ehdr32 (shoff shnum shstrndx : Nat) : List Byte :=
  [127, 69, 76, 70, 1, 1, 1, 0] ++ zeros 24 ++ le 4 shoff ++ zeros 12 ++ le 2 shnum ++
    le 2 shstrndx

/-- A 32-bit little-endian section-header entry with the given `sh_name`, `sh_offset`,
`sh_size`. -/
def shdr32 (name offset size : Nat) : List Byte :=
  le 4 name ++ zeros 12 ++ le 4 offset ++ le 4 size ++ zeros 16

/-- The section-name string table `\0.shstrtab\0.note.ident\0` (23 bytes). -/
def sampleStrtab : List Byte := [0] ++ bytesOf ".shstrtab" ++ [0] ++ NOTE_IDENT ++ [0]

/-- A note record: `n_namesz = 16`, `n_descsz = 0`, `n_type = 1`, then the 16 bytes `name`. -/
def sampleNote (name : List Byte) : List Byte := le 4 16 ++ le 4 0 ++ le 4 1 ++ name

/-- A 224-byte ELF file: header (0..52), string table (52..75), one pad byte, the
note (76..104), three section-header entries (104..224): the null section, `.shstrtab`
and `.note.ident`.  The header declares `shnum` entries and the note's name is `name`. -/
def sampleElf (shnum : Nat) (name : List Byte) : List Byte :=
  ehdr32 104 shnum 1 ++ sampleStrtab ++ [0] ++ sampleNote name ++
    shdr32 0 0 0 ++ shdr32 1 52 23 ++ shdr32 11 76 28

/-- The little-endian 32-bit target. -/
def elf32le : Target := ⟨.elf32, false⟩

/-- A 1038-byte script whose first line is longer than the 1024-byte window: `#!`, 1028
letters `a`, then a line feed at index 1030 followed by `#!dgsh` and a line feed. -/
def longScript : List Byte :=
  bytesOf "#!" ++ (List.replicate 1028 97 ++ bytesOf "\n#!dgsh\n")

/-! ## Vocabulary of the claims about `has_dgsh_section` -/

/-- Field `sh_name` of entry `i` of the table at offset `shdr`. -/
def entry_sh_name (t : Target) (data : List Byte) (shdr i : Nat) : Nat :=
  getField t data (shdr + i * sizeof_Shdr t.cls) 4

/-- Field `sh_offset` of entry `i` of the table at offset `shdr`. -/
def entry_sh_offset (t : Target) (data : List Byte) (shdr i : Nat) : Nat :=
  getField t data (shdr + i * sizeof_Shdr t.cls + offsetof_sh_offset t.cls) (sizeof_Off t.cls)

/-- The NUL-terminated string at `strTab + shdr[i].sh_name` equals `.note.ident`. -/
def entryNamedNoteIdent (t : Target) (data : List Byte) (shdr strTab i : Nat) : Prop :=
  (data.drop (strTab + entry_sh_name t data shdr i)).take (NOTE_IDENT.length + 1)
    = NOTE_IDENT ++ [0]

instance (t : Target) (data : List Byte) (shdr strTab i : Nat) :
    Decidable (entryNamedNoteIdent t data shdr strTab i) := by
  unfold entryNamedNoteIdent; infer_instance

/-- The first note record at `data + shdr[i].sh_offset` has `n_namesz = 16` and the 16
bytes after its 12-byte header are `DSpinellis/dgsh` and NUL. -/
def entryNoteMatches (t : Target) (data : List Byte) (shdr i : Nat) : Prop :=
  getField t data (entry_sh_offset t data shdr i) 4 = 16 ∧
  (data.drop (entry_sh_offset t data shdr i + sizeof_Nhdr)).take 16 = DGSH_NAME ++ [0]

instance (t : Target) (data : List Byte) (shdr i : Nat) :
    Decidable (entryNoteMatches t data shdr i) := by
  unfold entryNoteMatches; infer_instance

/-- A sample 32-bit little-endian file with two note records: header (0..52), string
table (52..75), one pad byte, a note named `nameA` (76..104), the note
`DSpinellis/dgsh` (104..132), then the section-header entries `entries` at 132.  The
header declares `shnum` entries and string-table index `shstrndx`. -/
def sampleElf2 (shnum shstrndx : Nat) (nameA : List Byte) (entries : List Byte) : List Byte :=
  ehdr32 132 shnum shstrndx ++ sampleStrtab ++ [0] ++ sampleNote nameA ++
    sampleNote (DGSH_NAME ++ [0]) ++ entries

/-- A file declaring one entry, the `.note.ident` section, with `e_shstrndx = 1`: the
string table is the entry after the declared ones. -/
def sampleStrndxOutside : List Byte :=
  sampleElf2 1 1 (DGSH_NAME ++ [0]) (shdr32 11 76 28 ++ shdr32 1 52 23)

/-- A file whose string-table entry declares a size of 100000 bytes. -/
def sampleStrtabOutside : List Byte :=
  sampleElf2 3 1 (DGSH_NAME ++ [0]) (shdr32 0 0 0 ++ shdr32 1 52 100000 ++ shdr32 11 76 28)

/-- A file with two sections named `.note.ident`: entry 0 holds a note named
`DSpinellis/dgsX`, entry 2 the note `DSpinellis/dgsh`. -/
def sampleTwoNoteSections : List Byte :=
  sampleElf2 3 1 (bytesOf "DSpinellis/dgsX" ++ [0])
    (shdr32 11 76 28 ++ shdr32 1 52 23 ++ shdr32 11 104 28)

/-- A file whose only `.note.ident` section holds two note records, `DSpinellis/dgsX`
first and `DSpinellis/dgsh` second. -/
def sampleSecondRecord : List Byte :=
  sampleElf2 3 1 (bytesOf "DSpinellis/dgsX" ++ [0])
    (shdr32 0 0 0 ++ shdr32 1 52 23 ++ shdr32 11 76 56)

/-! ## Vocabulary of the exact characterisation of the script scanner -/

/-- Case (a): one of the markers `dgsh-wrap`, `--dgsh`, `env dgsh` occurs at an offset `i`
with `i + |marker| < W`, no line feed among `data[0..i)`. -/
def markerOnFirstLine (data : List Byte) (W : Nat) : Prop :=
  ∃ m, m ∈ [bytesOf "dgsh-wrap", bytesOf "--dgsh", bytesOf "env dgsh"] ∧
    ∃ i, i + m.length < W ∧ (∀ j, j < i → data[j]? ≠ some 10) ∧
      (data.drop i).take m.length = m

/-- Case (b): the first line feed inside the window is at an index `p` with
`W - (p + 1) ≥ 7` and `data[p+1..p+7)` equal to `#!dgsh`. -/
def magicOnSecondLine (data : List Byte) (W : Nat) : Prop :=
  ∃ p, p < W ∧ data[p]? = some 10 ∧ (∀ j, j < p → data[j]? ≠ some 10) ∧
    7 ≤ W - (p + 1) ∧ (data.drop (p + 1)).take 6 = bytesOf "#!dgsh"

/-! ## Vocabulary of the claim about a truncated section-header table -/

theorem readBytes_eq_some_iff {data : List Byte} {off n : Nat} {bs : List Byte} :
    readBytes data off n = some bs ↔ off + n ≤ data.length ∧ (data.drop off).take n = bs := by
  unfold readBytes
  split <;> simp [*]

theorem readBytes_eq_none_iff {data : List Byte} {off n : Nat} :
    readBytes data off n = none ↔ data.length < off + n := by
  unfold readBytes
  split <;> simp <;> omega

theorem slice_take {data : List Byte} {off n W : Nat} (h : off + n ≤ W) :
    ((data.take W).drop off).take n = (data.drop off).take n := by
  apply List.ext_getElem?
  intro j
  by_cases hj : j < n
  · rw [List.getElem?_take_of_lt hj, List.getElem?_take_of_lt hj, List.getElem?_drop,
      List.getElem?_drop, List.getElem?_take_of_lt (by omega)]
  · rw [List.getElem?_take_eq_none (by omega), List.getElem?_take_eq_none (by omega)]

theorem readBytes_take {data : List Byte} {off n W : Nat} (h : off + n ≤ W) :
    readBytes (data.take W) off n = readBytes data off n := by
  unfold readBytes
  rw [slice_take h, List.length_take]
  by_cases h1 : off + n ≤ data.length
  · rw [if_pos h1, if_pos (by omega)]
  · rw [if_neg h1, if_neg (by omega)]

theorem cmpBytes_eq_zero_iff : ∀ (a b : List Byte), cmpBytes a b = 0 ↔ a = b
  | [], [] => by simp [cmpBytes]
  | [], _ :: _ => by simp [cmpBytes]
  | _ :: _, [] => by simp [cmpBytes]
  | a :: as, b :: bs => by
    simp only [cmpBytes]
    by_cases h : a = b
    · simp [h, cmpBytes_eq_zero_iff as bs]
    · simp only [h, if_false, List.cons.injEq, false_and, iff_false]
      split <;> simp

theorem memcmp_eq_some_iff {data : List Byte} {off : Nat} {lit : List Byte} {n : Nat} {r : Int} :
    memcmp data off lit n = some r ↔
      off + n ≤ data.length ∧ cmpBytes ((data.drop off).take n) (lit.take n) = r := by
  unfold memcmp readBytes
  split
  · next h => split at h <;> simp_all
  · next bs h =>
    split at h
    · simp at h; subst h; simp [*]
    · simp at h

theorem memcmp_eq_none_iff {data : List Byte} {off : Nat} {lit : List Byte} {n : Nat} :
    memcmp data off lit n = none ↔ data.length < off + n := by
  unfold memcmp
  split
  · next h => simpa [readBytes_eq_none_iff] using h
  · next bs h =>
    have := (readBytes_eq_some_iff.mp h).1
    simp; omega

theorem memcmp_take {data : List Byte} {off : Nat} {lit : List Byte} {n W : Nat}
    (h : off + n ≤ W) : memcmp (data.take W) off lit n = memcmp data off lit n := by
  unfold memcmp
  rw [readBytes_take h]

theorem getElem?_take_lt {data : List Byte} {i W : Nat} (h : i < W) :
    (data.take W)[i]? = data[i]? := List.getElem?_take_of_lt h

/-- The slice at `off` of length `n` equals `lit` exactly when it does so byte by byte. -/
theorem slice_eq_iff {data : List Byte} {off : Nat} {lit : List Byte} :
    (data.drop off).take lit.length = lit ↔ ∀ j, j < lit.length → data[off + j]? = lit[j]? := by
  constructor
  · intro e j hj
    have : ((data.drop off).take lit.length)[j]? = lit[j]? := by rw [e]
    rwa [List.getElem?_take_of_lt hj, List.getElem?_drop] at this
  · intro e
    apply List.ext_getElem?
    intro j
    by_cases hj : j < lit.length
    · rw [List.getElem?_take_of_lt hj, List.getElem?_drop, e j hj]
    · rw [List.getElem?_take_eq_none (by omega), List.getElem?_eq_none (by omega)]

theorem size_t_sub_of_le {a b : Nat} (hb : b ≤ a) (ha : a < SIZE_T_RANGE) :
    size_t_sub a b = a - b := by
  unfold size_t_sub SIZE_T_RANGE at *
  norm_num at *
  omega

/-! ## Lemmas on `memchr` -/

theorem memchr_take {data : List Byte} {c : Byte} :
    ∀ (n off W : Nat), off + n ≤ W → memchr (data.take W) off c n = memchr data off c n
  | 0, _, _, _ => rfl
  | n + 1, off, W, h => by
    simp only [memchr]
    rw [getElem?_take_lt (by omega), memchr_take n (off + 1) W (by omega)]

theorem memchr_isSome {data : List Byte} {c : Byte} :
    ∀ (n off : Nat), off + n ≤ data.length → ∃ r, memchr data off c n = some r
  | 0, _, _ => ⟨none, rfl⟩
  | n + 1, off, h => by
    simp only [memchr]
    have hlt : off < data.length := by omega
    rw [List.getElem?_eq_getElem hlt]
    simp only
    split
    · exact ⟨_, rfl⟩
    · exact memchr_isSome n (off + 1) (by omega)

/-- A pointer returned by `memchr` points at the first occurrence of `c` in the range. -/
theorem memchr_found {data : List Byte} {c : Byte} :
    ∀ (n off p : Nat), memchr data off c n = some (some p) →
      off ≤ p ∧ p < off + n ∧ data[p]? = some c ∧ ∀ j, off ≤ j → j < p → data[j]? ≠ some c
  | 0, _, _, h => by simp [memchr] at h
  | n + 1, off, p, h => by
    simp only [memchr] at h
    split at h
    · simp at h
    · next b hb =>
      split at h
      · next hbc =>
        simp at h
        subst h; subst hbc
        exact ⟨Nat.le_refl _, by omega, hb, fun j h1 h2 => by omega⟩
      · next hbc =>
        obtain ⟨h1, h2, h3, h4⟩ := memchr_found n (off + 1) p h
        refine ⟨by omega, by omega, h3, fun j hj1 hj2 => ?_⟩
        by_cases hjo : j = off
        · subst hjo; rw [hb]; simpa using hbc
        · exact h4 j (by omega) hj2

/-- When `memchr` returns `NULL`, no byte of the range equals `c`. -/
theorem memchr_null {data : List Byte} {c : Byte} :
    ∀ (n off : Nat), memchr data off c n = some none →
      ∀ j, off ≤ j → j < off + n → j < data.length ∧ data[j]? ≠ some c
  | 0, off, _ => fun j h1 h2 => by omega
  | n + 1, off, h => by
    simp only [memchr] at h
    split at h
    · simp at h
    · next b hb =>
      split at h
      · simp at h
      · next hbc =>
        have h2 := memchr_null n (off + 1) h
        intro j hj1 hj2
        by_cases hjo : j = off
        · subst hjo
          refine ⟨(List.getElem?_eq_some_iff.mp hb).1, ?_⟩
          rw [hb]; simpa using hbc
        · exact h2 j (by omega) (by omega)

/-- The function `memchr` returns `NULL` on a readable range without the byte `c`. -/
theorem memchr_eq_null {data : List Byte} {c : Byte} :
    ∀ (n off : Nat), off + n ≤ data.length →
      (∀ j, off ≤ j → j < off + n → data[j]? ≠ some c) → memchr data off c n = some none
  | 0, _, _, _ => rfl
  | n + 1, off, h, hc => by
    simp only [memchr]
    have hlt : off < data.length := by omega
    have h0 := hc off (Nat.le_refl _) (by omega)
    rw [List.getElem?_eq_getElem hlt] at h0 ⊢
    simp only
    rw [if_neg (by simpa using h0)]
    exact memchr_eq_null n (off + 1) (by omega) (fun j h1 h2 => hc j (by omega) (by omega))

/-- The function `memchr` returns the first occurrence of `c` when there is one. -/
theorem memchr_eq_first {data : List Byte} {c : Byte} :
    ∀ (n off p : Nat), off ≤ p → p < off + n → data[p]? = some c →
      (∀ j, off ≤ j → j < p → data[j]? ≠ some c) → memchr data off c n = some (some p)
  | 0, off, p, h1, h2, _, _ => by omega
  | n + 1, off, p, h1, h2, hp, hc => by
    simp only [memchr]
    by_cases hpo : p = off
    · subst hpo
      rw [hp]; simp
    · have h0 := hc off (Nat.le_refl _) (by omega)
      have hlt : off < data.length := by
        have := (List.getElem?_eq_some_iff.mp hp).1
        omega
      rw [List.getElem?_eq_getElem hlt] at h0 ⊢
      simp only
      rw [if_neg (by simpa using h0)]
      exact memchr_eq_first n (off + 1) p (by omega) (by omega) hp
        (fun j h1 h2 => hc j (by omega) h2)

/-! ## Lemmas on `linenstr` -/

theorem linenstr_take {data needle : List Byte} :
    ∀ (hlen pos W : Nat), pos + hlen ≤ W →
      linenstr (data.take W) pos needle hlen = linenstr data pos needle hlen
  | 0, _, _, _ => rfl
  | hlen + 1, pos, W, h => by
    simp only [linenstr]
    by_cases hn : needle.length < hlen + 1
    · rw [if_pos hn, if_pos hn, getElem?_take_lt (by omega), memcmp_take (by omega),
        linenstr_take hlen (pos + 1) W (by omega)]
    · rw [if_neg hn, if_neg hn]

theorem linenstr_isSome {data needle : List Byte} :
    ∀ (hlen pos : Nat), pos + hlen ≤ data.length → ∃ r, linenstr data pos needle hlen = some r
  | 0, _, _ => ⟨none, rfl⟩
  | hlen + 1, pos, h => by
    simp only [linenstr]
    by_cases hn : needle.length < hlen + 1
    · rw [if_pos hn]
      have hlt : pos < data.length := by omega
      rw [List.getElem?_eq_getElem hlt]
      simp only
      split
      · cases hm : memcmp data pos needle needle.length with
        | none => rw [memcmp_eq_none_iff] at hm; omega
        | some r =>
          simp only
          split
          · exact ⟨_, rfl⟩
          · exact linenstr_isSome hlen (pos + 1) (by omega)
      · exact ⟨_, rfl⟩
    · rw [if_neg hn]; exact ⟨_, rfl⟩

/-- A pointer returned by `linenstr` points at an occurrence of the needle that is
followed by at least one more byte of the `hlen` bytes, with no line feed at or
before it, and no occurrence of the needle starts earlier. -/
theorem linenstr_some_spec {data needle : List Byte} :
    ∀ (hlen pos p : Nat), linenstr data pos needle hlen = some (some p) →
      pos ≤ p ∧ p + needle.length < pos + hlen ∧ p + needle.length ≤ data.length ∧
      (data.drop p).take needle.length = needle ∧
      (∀ j, pos ≤ j → j ≤ p → data[j]? ≠ some 10) ∧
      (∀ j, pos ≤ j → j < p → (data.drop j).take needle.length ≠ needle)
  | 0, _, _, h => by simp [linenstr] at h
  | hlen + 1, pos, p, h => by
    simp only [linenstr] at h
    split at h
    · next hn =>
      split at h
      · simp at h
      · next c hc =>
        split at h
        · next hc10 =>
          split at h
          · simp at h
          · next r hr =>
            rw [memcmp_eq_some_iff] at hr
            split at h
            · next hr0 =>
              simp at h
              subst h
              subst hr0
              have hz := hr.2
              rw [List.take_of_length_le (Nat.le_refl _), cmpBytes_eq_zero_iff] at hz
              refine ⟨Nat.le_refl _, by omega, hr.1, hz, fun j h1 h2 => ?_, fun j h1 h2 => by omega⟩
              have : j = pos := by omega
              subst this; rw [hc]; simpa using hc10
            · next hr0 =>
              obtain ⟨h1, h2, h3, h4, h5, h6⟩ := linenstr_some_spec hlen (pos + 1) p h
              refine ⟨by omega, by omega, h3, h4, fun j hj1 hj2 => ?_, fun j hj1 hj2 => ?_⟩
              · by_cases hjo : j = pos
                · subst hjo; rw [hc]; simpa using hc10
                · exact h5 j (by omega) hj2
              · by_cases hjo : j = pos
                · subst hjo
                  intro e
                  apply hr0
                  rw [← hr.2, List.take_of_length_le (Nat.le_refl _), cmpBytes_eq_zero_iff]
                  exact e
                · exact h6 j (by omega) hj2
        · simp at h
    · simp at h

/-- The function `linenstr` finds a needle that lies before the first line feed and
is followed by at least one more byte of the `hlen` bytes. -/
theorem linenstr_complete {data needle : List Byte} :
    ∀ (hlen pos i : Nat), 0 < needle.length → pos ≤ i → i + needle.length < pos + hlen →
      i + needle.length ≤ data.length → (data.drop i).take needle.length = needle →
      (∀ j, pos ≤ j → j ≤ i → data[j]? ≠ some 10) →
      ∃ p, p ≤ i ∧ linenstr data pos needle hlen = some (some p)
  | 0, pos, i, _, h1, h2, _, _, _ => by omega
  | hlen + 1, pos, i, hpos, h1, h2, h3, h4, h5 => by
    simp only [linenstr]
    have hn : needle.length < hlen + 1 := by omega
    rw [if_pos hn]
    have h0 := h5 pos (Nat.le_refl _) h1
    have hlt : pos < data.length := by omega
    rw [List.getElem?_eq_getElem hlt] at h0 ⊢
    simp only
    rw [if_pos (by simpa using h0)]
    cases hm : memcmp data pos needle needle.length with
    | none => rw [memcmp_eq_none_iff] at hm; omega
    | some r =>
      simp only
      by_cases hr0 : r = 0
      · rw [if_pos hr0]; exact ⟨pos, h1, rfl⟩
      · rw [if_neg hr0]
        have hne : pos ≠ i := by
          intro e
          subst e
          apply hr0
          rw [memcmp_eq_some_iff] at hm
          rw [← hm.2, List.take_of_length_le (Nat.le_refl _), cmpBytes_eq_zero_iff]
          exact h4
        exact linenstr_complete hlen (pos + 1) i hpos (by omega) (by omega) h3 h4
          (fun j hj1 hj2 => h5 j (by omega) hj2)

/-! ## Lemmas on the script scanner -/

/-- The clamp of `is_script_dgsh_program` is `min len MAX_LINE_LEN`. -/
theorem clamp_eq_min (len : Nat) :
    (if len < MAX_LINE_LEN then len else MAX_LINE_LEN) = min len 1024 := by
  unfold MAX_LINE_LEN
  split <;> omega

theorem magic_length : magic.length = 6 := by decide

theorem sizeof_magic_eq : sizeof_magic = 7 := by decide

theorem is_magic_take {data : List Byte} {len W : Nat} (h : len ≤ W) (hl : len < SIZE_T_RANGE) :
    is_magic_script_dgsh_program (data.take W) len = is_magic_script_dgsh_program data len := by
  unfold is_magic_script_dgsh_program
  rw [memchr_take len 0 W (by omega)]
  cases hm : memchr data 0 10 len with
  | none => rfl
  | some r =>
    cases r with
    | none => rfl
    | some p =>
      simp only
      have hp := (memchr_found len 0 p hm).2.1
      rw [Nat.sub_zero, size_t_sub_of_le (by omega) hl]
      by_cases hlt : len - (p + 1) < sizeof_magic
      · rw [if_pos hlt, if_pos hlt]
      · rw [if_neg hlt, if_neg hlt, memcmp_take]
        rw [sizeof_magic_eq] at hlt ⊢
        omega

theorem is_magic_isSome {data : List Byte} {len : Nat} (h : len ≤ data.length)
    (hl : len < SIZE_T_RANGE) : ∃ r, is_magic_script_dgsh_program data len = some r := by
  unfold is_magic_script_dgsh_program
  obtain ⟨r, hr⟩ := @memchr_isSome data 10 len 0 (by omega)
  rw [hr]
  cases r with
  | none => exact ⟨_, rfl⟩
  | some p =>
    simp only
    have hp := (memchr_found len 0 p hr).2.1
    rw [Nat.sub_zero, size_t_sub_of_le (by omega) hl]
    by_cases hlt : len - (p + 1) < sizeof_magic
    · rw [if_pos hlt]; exact ⟨_, rfl⟩
    · rw [if_neg hlt]
      cases hm : memcmp data (p + 1) magic (sizeof_magic - 1) with
      | none =>
        rw [memcmp_eq_none_iff] at hm
        rw [sizeof_magic_eq] at hlt hm
        omega
      | some r => exact ⟨_, rfl⟩

/-- Exact condition under which `is_magic_script_dgsh_program` returns true: the first
line feed among the `len` bytes is at `p`, at least `sizeof(magic)` = 7 bytes of the
`len` remain after it, and the six bytes after it are `#!dgsh`. -/
theorem is_magic_true_iff {data : List Byte} {len : Nat} (hl : len < SIZE_T_RANGE) :
    is_magic_script_dgsh_program data len = some true ↔
      ∃ p, memchr data 0 10 len = some (some p) ∧ 7 ≤ len - (p + 1) ∧
        p + 1 + 6 ≤ data.length ∧ (data.drop (p + 1)).take 6 = magic := by
  unfold is_magic_script_dgsh_program
  cases hm : memchr data 0 10 len with
  | none => simp
  | some r =>
    cases r with
    | none => simp
    | some p =>
      simp only
      have hp := (memchr_found len 0 p hm).2.1
      rw [Nat.sub_zero, size_t_sub_of_le (by omega) hl, sizeof_magic_eq]
      by_cases hlt : len - (p + 1) < 7
      · rw [if_pos hlt]
        simp
        intro h; omega
      · rw [if_neg hlt]
        cases hc : memcmp data (p + 1) magic (7 - 1) with
        | none =>
          rw [memcmp_eq_none_iff] at hc
          simp
          intro _ h; omega
        | some r =>
          rw [memcmp_eq_some_iff] at hc
          obtain ⟨hc1, hc2⟩ := hc
          have hmt : List.take (7 - 1) magic = magic := by decide
          rw [hmt] at hc2
          simp only [Option.some.injEq, beq_iff_eq]
          constructor
          · intro hr
            subst hr
            rw [cmpBytes_eq_zero_iff] at hc2
            exact ⟨p, rfl, by omega, by omega, hc2⟩
          · rintro ⟨q, hq, _, _, hq4⟩
            subst hq
            rw [← hc2, cmpBytes_eq_zero_iff]
            exact hq4

theorem linenstr_found_take {data needle : List Byte} {len W : Nat} (h : len ≤ W) :
    linenstr_found (data.take W) needle len = linenstr_found data needle len := by
  unfold linenstr_found
  rw [linenstr_take len 0 W (by omega)]

theorem linenstr_found_isSome {data needle : List Byte} {len : Nat} (h : len ≤ data.length) :
    ∃ r, linenstr_found data needle len = some r := by
  unfold linenstr_found
  obtain ⟨r, hr⟩ := @linenstr_isSome data needle len 0 (by omega)
  rw [hr]
  exact ⟨_, rfl⟩

theorem linenstr_found_true_iff {data needle : List Byte} {len : Nat} :
    linenstr_found data needle len = some true ↔
      ∃ p, linenstr data 0 needle len = some (some p) := by
  unfold linenstr_found
  cases h : linenstr data 0 needle len with
  | none => simp
  | some r => cases r <;> simp

/-- The verdict of the script scanner when it is true: one of the operands of the
`||` chain is true. -/
theorem is_script_true_cases {data : List Byte} {len : Nat}
    (h : is_script_dgsh_program data len = some true) :
    linenstr_found data (bytesOf "dgsh-wrap") (min len 1024) = some true ∨
    linenstr_found data (bytesOf "--dgsh") (min len 1024) = some true ∨
    linenstr_found data (bytesOf "env dgsh") (min len 1024) = some true ∨
    is_magic_script_dgsh_program data (min len 1024) = some true := by
  unfold is_script_dgsh_program at h
  simp only [clamp_eq_min] at h
  split at h
  · simp at h
  · next h1 => exact Or.inl h1
  · split at h
    · simp at h
    · next h2 => exact Or.inr (Or.inl h2)
    · split at h
      · simp at h
      · next h3 => exact Or.inr (Or.inr (Or.inl h3))
      · exact Or.inr (Or.inr (Or.inr h))

/-- On a view of at least `len` bytes every operand of the `||` chain has a value
and the verdict is their disjunction. -/
theorem is_script_eq_or {data : List Byte} {len : Nat} (h : len ≤ data.length) :
    ∃ a b c m, linenstr_found data (bytesOf "dgsh-wrap") (min len 1024) = some a ∧
      linenstr_found data (bytesOf "--dgsh") (min len 1024) = some b ∧
      linenstr_found data (bytesOf "env dgsh") (min len 1024) = some c ∧
      is_magic_script_dgsh_program data (min len 1024) = some m ∧
      is_script_dgsh_program data len = some (a || b || c || m) := by
  have hW : min len 1024 ≤ data.length := by omega
  obtain ⟨a, ha⟩ := @linenstr_found_isSome data (bytesOf "dgsh-wrap") _ hW
  obtain ⟨b, hb⟩ := @linenstr_found_isSome data (bytesOf "--dgsh") _ hW
  obtain ⟨c, hc⟩ := @linenstr_found_isSome data (bytesOf "env dgsh") _ hW
  obtain ⟨m, hm⟩ := is_magic_isSome hW (by unfold SIZE_T_RANGE; omega)
  refine ⟨a, b, c, m, ha, hb, hc, hm, ?_⟩
  unfold is_script_dgsh_program
  simp only [clamp_eq_min]
  rw [ha, hb, hc, hm]
  cases a <;> cases b <;> cases c <;> cases m <;> rfl

theorem is_script_take {data : List Byte} {len : Nat} :
    is_script_dgsh_program (data.take (min len 1024)) len = is_script_dgsh_program data len := by
  unfold is_script_dgsh_program
  simp only [clamp_eq_min]
  rw [linenstr_found_take (Nat.le_refl _), linenstr_found_take (Nat.le_refl _),
    linenstr_found_take (Nat.le_refl _), is_magic_take (Nat.le_refl _)
      (by unfold SIZE_T_RANGE; omega)]

/-! ## Lemmas on the binary note scanner -/

theorem readField_eq_getField {t : Target} {data : List Byte} {off w : Nat}
    (h : off + w ≤ data.length) : readField t data off w = some (getField t data off w) := by
  unfold readField readBytes getField
  rw [if_pos h]

theorem readField_eq_some {t : Target} {data : List Byte} {off w v : Nat}
    (h : readField t data off w = some v) :
    off + w ≤ data.length ∧ v = getField t data off w := by
  unfold readField readBytes at h
  split at h
  · simp at h
  · next bs hbs =>
    split at hbs
    · next hle =>
      simp at hbs h
      subst hbs
      exact ⟨hle, h.symm⟩
    · simp at hbs

theorem readField_eq_none_iff {t : Target} {data : List Byte} {off w : Nat} :
    readField t data off w = none ↔ data.length < off + w := by
  unfold readField
  cases h : readBytes data off w with
  | none => simpa [readBytes_eq_none_iff] using h
  | some bs =>
    have := (readBytes_eq_some_iff.mp h).1
    simp; omega

/-- The first byte of a slice is the byte at its offset. -/
theorem slice_succ (data : List Byte) (s n : Nat) :
    (data.drop s).take (n + 1) =
      match data[s]? with
      | none => []
      | some b => b :: (data.drop (s + 1)).take n := by
  by_cases h : s < data.length
  · rw [List.getElem?_eq_getElem h, List.drop_eq_getElem_cons h]
    rfl
  · rw [List.getElem?_eq_none (by omega), List.drop_eq_nil_of_le (by omega)]
    rfl

/-- The function `strcmp` returns 0 exactly when the bytes at `s` are the literal and
its terminator. -/
theorem strcmp_eq_zero_iff {data : List Byte} :
    ∀ (lit : List Byte) (s : Nat),
      strcmp data s lit = some 0 ↔ (data.drop s).take (lit.length + 1) = lit ++ [0]
  | [], s => by
    simp only [strcmp, List.length_nil, List.nil_append]
    rw [slice_succ]
    cases h : data[s]? with
    | none => simp
    | some c =>
      simp only [Option.some.injEq, List.take_zero, List.cons.injEq, and_true]
      by_cases hc : c = 0
      · simp [hc]
      · simp [hc]
  | b :: rest, s => by
    simp only [strcmp, List.length_cons, List.cons_append]
    rw [slice_succ]
    cases h : data[s]? with
    | none => simp
    | some c =>
      simp only [List.cons.injEq]
      by_cases hc : c = b
      · rw [if_pos hc, strcmp_eq_zero_iff rest (s + 1)]
        simp [hc]
      · rw [if_neg hc]
        simp only [hc, false_and, iff_false, Option.some.injEq]
        split <;> simp

/-- The function `strcmp` stays inside the view when the string at `s` is terminated
inside it. -/
theorem strcmp_isSome {data : List Byte} :
    ∀ (lit : List Byte) (s e : Nat), (∀ b, b ∈ lit → b ≠ 0) → s ≤ e → data[e]? = some 0 →
      ∃ r, strcmp data s lit = some r
  | [], s, e, _, hse, he => by
    have hlt : s < data.length := by
      have := (List.getElem?_eq_some_iff.mp he).1
      omega
    simp only [strcmp]
    rw [List.getElem?_eq_getElem hlt]
    exact ⟨_, rfl⟩
  | b :: rest, s, e, hb, hse, he => by
    have hlt : s < data.length := by
      have := (List.getElem?_eq_some_iff.mp he).1
      omega
    simp only [strcmp]
    rw [List.getElem?_eq_getElem hlt]
    simp only
    by_cases hc : data[s] = b
    · rw [if_pos hc]
      have hne : s ≠ e := by
        intro hs
        subst hs
        rw [List.getElem?_eq_getElem hlt] at he
        simp at he
        exact hb b (List.mem_cons_self _ _) (hc ▸ he)
      exact strcmp_isSome rest (s + 1) e (fun x hx => hb x (List.mem_cons_of_mem _ hx))
        (by omega) he
    · rw [if_neg hc]
      exact ⟨_, rfl⟩

theorem field_inside_entry (c : ElfClass) :
    4 ≤ sizeof_Shdr c ∧ offsetof_sh_offset c + sizeof_Off c ≤ sizeof_Shdr c ∧
    offsetof_e_shoff c + sizeof_Off c ≤ sizeof_Ehdr c ∧
    offsetof_e_shnum c + 2 ≤ sizeof_Ehdr c ∧ offsetof_e_shstrndx c + 2 = sizeof_Ehdr c := by
  cases c <;> decide

theorem entry_inside_table {t : Target} {data : List Byte} {i : Nat}
    (htable : e_shoff t data + e_shnum t data * sizeof_Shdr t.cls ≤ data.length)
    (hi : i < e_shnum t data) :
    shdr_entry t data i + sizeof_Shdr t.cls ≤ data.length := by
  unfold shdr_entry
  have : (i + 1) * sizeof_Shdr t.cls ≤ e_shnum t data * sizeof_Shdr t.cls :=
    Nat.mul_le_mul_right _ hi
  rw [Nat.add_mul, Nat.one_mul] at this
  omega

theorem note_ident_nonzero : ∀ b, b ∈ NOTE_IDENT → b ≠ 0 := by decide

theorem sizeof_DGSH_NAME_eq : sizeof_DGSH_NAME = 16 := by decide

/-- On a well-formed file the loop body at a declared entry stays inside the file and
reaches `return 1` exactly when the entry is a `.note.ident` section whose note matches. -/
theorem body_spec {t : Target} {data : List Byte} (hwf : WellFormedElf t data) {i : Nat}
    (hi : i < e_shnum t data) :
    has_dgsh_section_body t data (e_shoff t data) (strtab_offset t data) i =
      some (decide (namedNoteIdent t data i ∧ noteMatches t data i)) := by
  have hent := entry_inside_table hwf.table hi
  obtain ⟨f1, f2, _, _, _⟩ := field_inside_entry t.cls
  unfold has_dgsh_section_body
  simp only
  have e1 : readField t data (e_shoff t data + i * sizeof_Shdr t.cls) 4
      = some (sh_name t data i) :=
    readField_eq_getField (by unfold shdr_entry at hent; omega)
  rw [e1]
  simp only
  obtain ⟨e, he1, he2, he3⟩ := hwf.names i hi
  obtain ⟨c, hc⟩ := @strcmp_isSome data NOTE_IDENT
    (strtab_offset t data + sh_name t data i) (strtab_offset t data + e)
    note_ident_nonzero (by omega) he3
  rw [hc]
  simp only
  by_cases hc0 : c = 0
  · subst hc0
    have hnamed : namedNoteIdent t data i := (strcmp_eq_zero_iff _ _).mp hc
    obtain ⟨hn1, hn2⟩ := hwf.notes i hi hnamed
    have e2 : readField t data (e_shoff t data + i * sizeof_Shdr t.cls +
        offsetof_sh_offset t.cls) (sizeof_Off t.cls) = some (sh_offset t data i) :=
      readField_eq_getField (by unfold shdr_entry at hent; omega)
    have e3 : readField t data (sh_offset t data i) 4 = some (n_namesz t data i) :=
      readField_eq_getField (by unfold sizeof_Nhdr at hn2; omega)
    rw [if_neg (by simp), e2]
    simp only
    rw [e3]
    simp only
    rw [sizeof_DGSH_NAME_eq]
    by_cases h16 : n_namesz t data i = 16
    · rw [if_pos h16]
      cases hm : memcmp data (sh_offset t data i + sizeof_Nhdr) (DGSH_NAME ++ [0]) 16 with
      | none =>
        rw [memcmp_eq_none_iff] at hm
        unfold sizeof_Nhdr at hn2 hm
        omega
      | some r =>
        rw [memcmp_eq_some_iff] at hm
        have ht : (DGSH_NAME ++ [0]).take 16 = DGSH_NAME ++ [0] := by decide
        rw [ht] at hm
        simp only [Option.some.injEq]
        by_cases hr : r = 0
        · subst hr
          have := (cmpBytes_eq_zero_iff _ _).mp hm.2
          have hmatch : noteMatches t data i := ⟨h16, this⟩
          simp [hnamed, hmatch]
        · have hmatch : ¬ noteMatches t data i := by
            rintro ⟨_, h2⟩
            apply hr
            rw [← hm.2, cmpBytes_eq_zero_iff]
            exact h2
          simp [hmatch, hr]
    · rw [if_neg h16]
      have hmatch : ¬ noteMatches t data i := fun h => h16 h.1
      simp [hmatch]
  · rw [if_pos hc0]
    have hnamed : ¬ namedNoteIdent t data i := by
      intro h
      have := (strcmp_eq_zero_iff _ _).mpr h
      rw [hc] at this
      simp at this
      exact hc0 this
    simp [hnamed]

theorem loop_false_of_bodies {t : Target} {data : List Byte} {shdr strTab : Nat} :
    ∀ (n a : Nat),
      (∀ i, a ≤ i → i < a + n → has_dgsh_section_body t data shdr strTab i = some false) →
      has_dgsh_section_loop t data shdr strTab a n = some false
  | 0, _, _ => rfl
  | n + 1, a, h => by
    simp only [has_dgsh_section_loop]
    rw [h a (Nat.le_refl _) (by omega)]
    exact loop_false_of_bodies n (a + 1) (fun i h1 h2 => h i (by omega) (by omega))

theorem loop_true_of_body {t : Target} {data : List Byte} {shdr strTab : Nat} :
    ∀ (n a k : Nat), a ≤ k → k < a + n →
      has_dgsh_section_body t data shdr strTab k = some true →
      (∀ i, a ≤ i → i < k → ∃ v, has_dgsh_section_body t data shdr strTab i = some v) →
      has_dgsh_section_loop t data shdr strTab a n = some true
  | 0, a, k, h1, h2, _, _ => by omega
  | n + 1, a, k, h1, h2, hk, hb => by
    simp only [has_dgsh_section_loop]
    by_cases hak : a = k
    · subst hak; rw [hk]
    · obtain ⟨v, hv⟩ := hb a (Nat.le_refl _) (by omega)
      rw [hv]
      cases v with
      | true => rfl
      | false =>
        exact loop_true_of_body n (a + 1) k (by omega) (by omega) hk
          (fun i h3 h4 => hb i (by omega) h4)

theorem bodies_of_loop_false {t : Target} {data : List Byte} {shdr strTab : Nat} :
    ∀ (n a : Nat), has_dgsh_section_loop t data shdr strTab a n = some false →
      ∀ i, a ≤ i → i < a + n → has_dgsh_section_body t data shdr strTab i = some false
  | 0, _, _ => fun i h1 h2 => by omega
  | n + 1, a, h => by
    simp only [has_dgsh_section_loop] at h
    intro i h1 h2
    cases hb : has_dgsh_section_body t data shdr strTab a with
    | none => rw [hb] at h; simp at h
    | some v =>
      rw [hb] at h
      cases v with
      | true => simp at h
      | false =>
        by_cases hia : i = a
        · subst hia; exact hb
        · exact bodies_of_loop_false n (a + 1) h i (by omega) (by omega)

/-- A verdict of `is_elf_dgsh_program` is the verdict of the loop over the `e_shnum`
entries at `e_shoff`, with the string table of entry `e_shstrndx`. -/
theorem is_elf_some {t : Target} {data : List Byte} {v : Bool}
    (h : is_elf_dgsh_program t data = some v) :
    has_dgsh_section_loop t data (e_shoff t data) (strtab_offset t data) 0 (e_shnum t data)
      = some v := by
  unfold is_elf_dgsh_program at h
  cases h1 : readField t data (offsetof_e_shoff t.cls) (sizeof_Off t.cls) with
  | none => rw [h1] at h; simp at h
  | some a =>
    rw [h1] at h
    simp only at h
    cases h2 : readField t data (offsetof_e_shstrndx t.cls) 2 with
    | none => rw [h2] at h; simp at h
    | some b =>
      rw [h2] at h
      simp only at h
      cases h3 : readField t data (a + b * sizeof_Shdr t.cls + offsetof_sh_offset t.cls)
          (sizeof_Off t.cls) with
      | none => rw [h3] at h; simp at h
      | some c =>
        rw [h3] at h
        simp only at h
        cases h4 : readField t data (offsetof_e_shnum t.cls) 2 with
        | none => rw [h4] at h; simp at h
        | some d =>
          rw [h4] at h
          simp only at h
          have ea := (readField_eq_some h1).2
          have eb := (readField_eq_some h2).2
          have ec := (readField_eq_some h3).2
          have ed := (readField_eq_some h4).2
          unfold has_dgsh_section at h
          unfold strtab_offset sh_offset shdr_entry e_shoff e_shstrndx e_shnum
          rw [← ea, ← eb, ← ec, ← ed]
          exact h

/-- On a view that holds the header and entry `e_shstrndx` of the table,
`is_elf_dgsh_program` is the loop over the declared entries. -/
theorem is_elf_eq_loop {t : Target} {data : List Byte}
    (hhdr : sizeof_Ehdr t.cls ≤ data.length)
    (hstr : shdr_entry t data (e_shstrndx t data) + sizeof_Shdr t.cls ≤ data.length) :
    is_elf_dgsh_program t data =
      has_dgsh_section_loop t data (e_shoff t data) (strtab_offset t data) 0
        (e_shnum t data) := by
  obtain ⟨_, f2, f3, f4, f5⟩ := field_inside_entry t.cls
  unfold is_elf_dgsh_program
  have h1 : readField t data (offsetof_e_shoff t.cls) (sizeof_Off t.cls)
      = some (e_shoff t data) := readField_eq_getField (by omega)
  have h2 : readField t data (offsetof_e_shstrndx t.cls) 2 = some (e_shstrndx t data) :=
    readField_eq_getField (by omega)
  have h3 : readField t data (e_shoff t data + e_shstrndx t data * sizeof_Shdr t.cls +
      offsetof_sh_offset t.cls) (sizeof_Off t.cls) = some (strtab_offset t data) :=
    readField_eq_getField (by unfold shdr_entry at hstr; omega)
  have h4 : readField t data (offsetof_e_shnum t.cls) 2 = some (e_shnum t data) :=
    readField_eq_getField (by omega)
  rw [h1]
  simp only
  rw [h2]
  simp only
  rw [h3]
  simp only
  rw [h4]
  rfl

/-! ## Further lemmas on the script scanner -/

/-- A slice that ends inside the first `W` bytes occurs in them. -/
theorem slice_within_take {data : List Byte} {p n W : Nat} (h : p + n ≤ W) :
    (data.drop p).take n <:+: data.take W := by
  rw [← slice_take h]
  refine ⟨(data.take W).take p, ((data.take W).drop p).drop n, ?_⟩
  rw [List.append_assoc, List.take_append_drop, List.take_append_drop]

theorem linenstr_found_occurs {data needle : List Byte} {W : Nat}
    (h : linenstr_found data needle W = some true) : needle <:+: data.take W := by
  obtain ⟨p, hp⟩ := linenstr_found_true_iff.mp h
  obtain ⟨_, h2, _, h4, _, _⟩ := linenstr_some_spec W 0 p hp
  rw [← h4]
  exact slice_within_take (by omega)

theorem marker_no_newline {m : List Byte}
    (hm : m ∈ [bytesOf "dgsh-wrap", bytesOf "--dgsh", bytesOf "env dgsh"]) :
    0 < m.length ∧ m[0]? ≠ some 10 := by
  simp only [List.mem_cons, List.mem_singleton, List.not_mem_nil, or_false] at hm
  rcases hm with h | h | h <;> subst h <;> decide

/-- A marker on the first line, followed by one more byte of the window, makes
`linenstr` return a pointer. -/
theorem linenstr_found_of_occurrence {data m : List Byte} {W i : Nat}
    (hm : m ∈ [bytesOf "dgsh-wrap", bytesOf "--dgsh", bytesOf "env dgsh"])
    (hW : W ≤ data.length) (hi : i + m.length < W)
    (hocc : (data.drop i).take m.length = m)
    (hline : ∀ j, j < i → data[j]? ≠ some 10) :
    linenstr_found data m W = some true := by
  obtain ⟨hpos, h0⟩ := marker_no_newline hm
  have hi0 : data[i]? ≠ some 10 := by
    have := (slice_eq_iff.mp hocc) 0 hpos
    rw [Nat.add_zero] at this
    rw [this]; exact h0
  obtain ⟨p, _, hp⟩ := @linenstr_complete data m W 0 i hpos (Nat.zero_le _)
    (by omega) (by omega) hocc (fun j _ hj => by
      by_cases hji : j = i
      · subst hji; exact hi0
      · exact hline j (by omega))
  exact linenstr_found_true_iff.mpr ⟨p, hp⟩

theorem is_script_true_of_linenstr {data m : List Byte} {len : Nat}
    (hm : m ∈ [bytesOf "dgsh-wrap", bytesOf "--dgsh", bytesOf "env dgsh"])
    (hlen : len ≤ data.length)
    (h : linenstr_found data m (min len 1024) = some true) :
    is_script_dgsh_program data len = some true := by
  obtain ⟨a, b, c, v, ha, hb, hc, _, hs⟩ := is_script_eq_or hlen
  rw [hs]
  simp only [List.mem_cons, List.mem_singleton, List.not_mem_nil, or_false] at hm
  rcases hm with e | e | e <;> subst e
  · rw [ha] at h; cases h; rfl
  · rw [hb] at h; cases h; cases a <;> rfl
  · rw [hc] at h; cases h; cases a <;> cases b <;> rfl

theorem marker_length_ge {m : List Byte}
    (hm : m ∈ [bytesOf "dgsh-wrap", bytesOf "--dgsh", bytesOf "env dgsh"]) :
    6 ≤ m.length ∧
    (m[0]? = some 100 ∨ m[0]? = some 45 ∨ m[0]? = some 101) := by
  simp only [List.mem_cons, List.mem_singleton, List.not_mem_nil, or_false] at hm
  rcases hm with h | h | h <;> subst h <;> decide

/-- Verdicts of the script scanner on a window without line feed. -/
theorem script_without_newline {data : List Byte} {len : Nat} (hlen : len ≤ data.length)
    (hno : ∀ j, j < min len 1024 → data[j]? ≠ some 10) :
    is_magic_script_dgsh_program data (min len 1024) = some false ∧
    (is_script_dgsh_program data len = some true ↔
      ∃ m, m ∈ [bytesOf "dgsh-wrap", bytesOf "--dgsh", bytesOf "env dgsh"] ∧
        ∃ i, i + m.length < min len 1024 ∧ (data.drop i).take m.length = m) ∧
    (is_script_dgsh_program data len = some false ↔
      ¬ ∃ m, m ∈ [bytesOf "dgsh-wrap", bytesOf "--dgsh", bytesOf "env dgsh"] ∧
        ∃ i, i + m.length < min len 1024 ∧ (data.drop i).take m.length = m) := by
  have hm : is_magic_script_dgsh_program data (min len 1024) = some false := by
    unfold is_magic_script_dgsh_program
    rw [memchr_eq_null _ 0 (by omega) (fun j _ hj => hno j (by omega))]
  have hiff : is_script_dgsh_program data len = some true ↔
      ∃ m, m ∈ [bytesOf "dgsh-wrap", bytesOf "--dgsh", bytesOf "env dgsh"] ∧
        ∃ i, i + m.length < min len 1024 ∧ (data.drop i).take m.length = m := by
    constructor
    · intro h
      have aux : ∀ m, linenstr_found data m (min len 1024) = some true →
          ∃ i, i + m.length < min len 1024 ∧ (data.drop i).take m.length = m := by
        intro m h1
        obtain ⟨p, hp⟩ := linenstr_found_true_iff.mp h1
        obtain ⟨_, h2, _, h4, _, _⟩ := linenstr_some_spec _ 0 p hp
        exact ⟨p, by omega, h4⟩
      rcases is_script_true_cases h with h1 | h1 | h1 | h1
      · exact ⟨_, by simp, aux _ h1⟩
      · exact ⟨_, by simp, aux _ h1⟩
      · exact ⟨_, by simp, aux _ h1⟩
      · rw [hm] at h1; cases h1
    · rintro ⟨m, hmem, i, hi, hocc⟩
      exact is_script_true_of_linenstr hmem hlen
        (linenstr_found_of_occurrence hmem (by omega) hi hocc
          (fun j hj => hno j (by omega)))
  refine ⟨hm, hiff, ?_⟩
  rw [← hiff]
  obtain ⟨a, b, c, v, _, _, _, _, hs⟩ := is_script_eq_or hlen
  rw [hs]
  cases (a || b || c || v) <;> simp


/-! ## The sample script with a long first line -/

theorem longScript_length : longScript.length = 1038 := by
  have h1 : (bytesOf "#!").length = 2 := by decide
  have h2 : (bytesOf "\n#!dgsh\n").length = 8 := by decide
  unfold longScript
  rw [List.length_append, List.length_append, List.length_replicate, h1, h2]

theorem longScript_tail (j : Nat) :
    longScript[1030 + j]? = (bytesOf "\n#!dgsh\n")[j]? := by
  have h1 : (bytesOf "#!").length = 2 := by decide
  unfold longScript
  rw [List.getElem?_append_right (by omega), List.getElem?_append_right (by simp; omega)]
  congr 1
  simp [h1]
  omega

theorem longScript_head (j : Nat) (hj : j < 1030) :
    longScript[j]? = some 35 ∨ longScript[j]? = some 33 ∨ longScript[j]? = some 97 := by
  have h1 : (bytesOf "#!").length = 2 := by decide
  unfold longScript
  by_cases h : j < 2
  · rw [List.getElem?_append_left (by omega)]
    have : j = 0 ∨ j = 1 := by omega
    rcases this with e | e <;> subst e
    · left; decide
    · right; left; decide
  · rw [List.getElem?_append_right (by omega), List.getElem?_append_left (by simp; omega),
      List.getElem?_replicate, if_pos (by omega)]
    right; right; rfl

theorem longScript_no_newline (j : Nat) (hj : j < 1030) : longScript[j]? ≠ some 10 := by
  rcases longScript_head j hj with h | h | h <;> rw [h] <;> decide

/-- The line feed of `longScript` lies past the 1024-byte window and its first line
holds no marker, so the script scanner returns false. -/
theorem longScript_verdict :
    is_magic_script_dgsh_program longScript (min 1038 1024) = some false ∧
    is_script_dgsh_program longScript 1038 = some false := by
  have h := @script_without_newline longScript 1038
    (by rw [longScript_length]) (fun j hj => longScript_no_newline j (by omega))
  refine ⟨h.1, h.2.2.mpr ?_⟩
  rintro ⟨m, hm, i, hi, hocc⟩
  obtain ⟨h6, h0⟩ := marker_length_ge hm
  have hb := slice_eq_iff.mp hocc 0 (by omega)
  rw [Nat.add_zero] at hb
  rcases longScript_head i (by omega) with e | e | e <;> rw [e] at hb <;>
    rcases h0 with f | f | f <;> rw [f] at hb <;> exact absurd hb (by decide)

/-! ## Claims on the script scanner -/

/-- C3 (as stated, refuted): in the script `#!/bin/sh\ndgsh-wrap foo\n` the first line
feed is at index 9 and the bytes after it begin with the marker `dgsh-wrap`, before
the next line break, yet `is_script_dgsh_program` returns false: `linenstr` stops at
the first line feed, so only the first line is searched. -/
theorem C3_second_line_marker_not_detected :
    (bytesOf "#!/bin/sh\ndgsh-wrap foo\n")[9]? = some 10 ∧
    (∀ j, j < 9 → (bytesOf "#!/bin/sh\ndgsh-wrap foo\n")[j]? ≠ some 10) ∧
    ((bytesOf "#!/bin/sh\ndgsh-wrap foo\n").drop 10).take 9 = bytesOf "dgsh-wrap" ∧
    is_script_dgsh_program (bytesOf "#!/bin/sh\ndgsh-wrap foo\n") 24 = some false := by
  decide

/-- C3 (amended): markers on the first line are detected.  For every script view of
`len` readable bytes, if one of `dgsh-wrap`, `--dgsh`, `env dgsh` occurs at an offset
`i` with no line feed before it and `i + |marker| < min len 1024`, then
`is_script_dgsh_program` returns true. -/
theorem C3_first_line_marker_detected (data : List Byte) (len : Nat) (m : List Byte) (i : Nat)
    (hlen : len ≤ data.length)
    (hm : m ∈ [bytesOf "dgsh-wrap", bytesOf "--dgsh", bytesOf "env dgsh"])
    (hi : i + m.length < min len 1024)
    (hocc : (data.drop i).take m.length = m)
    (hline : ∀ j, j < i → data[j]? ≠ some 10) :
    is_script_dgsh_program data len = some true :=
  is_script_true_of_linenstr hm hlen
    (linenstr_found_of_occurrence hm (by omega) hi hocc hline)

/-- Witness for C3 (amended): `#!/usr/bin/env dgsh\n` holds `env dgsh` at offset 11 of
its first line. -/
theorem C3_first_line_marker_detected_witness :
    is_script_dgsh_program (bytesOf "#!/usr/bin/env dgsh\n") 20 = some true :=
  C3_first_line_marker_detected (bytesOf "#!/usr/bin/env dgsh\n") 20 (bytesOf "env dgsh") 11
    (by decide) (by decide) (by decide) (by decide) (by decide)

/-- C4: no false positives for scripts.  Whenever `is_script_dgsh_program` returns true,
the first `min len 1024` bytes of the view contain one of the literal markers
`dgsh-wrap`, `--dgsh`, `env dgsh`, `#!dgsh`; a readable view whose window contains none
of them is classified not compatible, and so is `#!/bin/sh\necho hi\n`. -/
theorem C4_script_no_false_positive (data : List Byte) (len : Nat) :
    (is_script_dgsh_program data len = some true →
      ∃ m, m ∈ [bytesOf "dgsh-wrap", bytesOf "--dgsh", bytesOf "env dgsh", bytesOf "#!dgsh"] ∧
        m <:+: data.take (min len 1024)) ∧
    (len ≤ data.length →
      (∀ m, m ∈ [bytesOf "dgsh-wrap", bytesOf "--dgsh", bytesOf "env dgsh", bytesOf "#!dgsh"] →
        ¬ m <:+: data.take (min len 1024)) →
      is_script_dgsh_program data len = some false) ∧
    is_script_dgsh_program (bytesOf "#!/bin/sh\necho hi\n") 18 = some false := by
  have key : is_script_dgsh_program data len = some true →
      ∃ m, m ∈ [bytesOf "dgsh-wrap", bytesOf "--dgsh", bytesOf "env dgsh", bytesOf "#!dgsh"] ∧
        m <:+: data.take (min len 1024) := by
    intro h
    rcases is_script_true_cases h with h1 | h1 | h1 | h1
    · exact ⟨_, by simp, linenstr_found_occurs h1⟩
    · exact ⟨_, by simp, linenstr_found_occurs h1⟩
    · exact ⟨_, by simp, linenstr_found_occurs h1⟩
    · obtain ⟨p, hp, h7, _, hmag⟩ :=
        (is_magic_true_iff (by unfold SIZE_T_RANGE; omega)).mp h1
      refine ⟨bytesOf "#!dgsh", by simp, ?_⟩
      have : bytesOf "#!dgsh" = magic := rfl
      rw [this, ← hmag]
      exact slice_within_take (by omega)
  refine ⟨key, fun hlen hno => ?_, by decide⟩
  obtain ⟨a, b, c, v, _, _, _, _, hs⟩ := is_script_eq_or hlen
  rw [hs] at key ⊢
  cases hv : (a || b || c || v) with
  | false => rfl
  | true =>
    rw [hv] at key
    obtain ⟨m, hm, hin⟩ := key rfl
    exact absurd hin (hno m hm)

/-- Witness for C4: `#!/usr/bin/env dgsh\n` is classified compatible and contains a marker. -/
theorem C4_script_no_false_positive_witness :
    ∃ m, m ∈ [bytesOf "dgsh-wrap", bytesOf "--dgsh", bytesOf "env dgsh", bytesOf "#!dgsh"] ∧
      m <:+: (bytesOf "#!/usr/bin/env dgsh\n").take (min 20 1024) :=
  (C4_script_no_false_positive (bytesOf "#!/usr/bin/env dgsh\n") 20).1 (by decide)

/-- C5 (as stated, refuted), twice.  In `#!/bin/sh\n#!dgsh` the first line feed is at
index 9, the bytes after it are exactly `#!dgsh`, and 6 bytes (the marker's length) remain
after it, yet `is_magic_script_dgsh_program` and `is_script_dgsh_program` return false:
the length test is against `sizeof(magic)`, which is 7.  In `longScript` the first line feed
is at index 1030, followed by `#!dgsh` and one more byte, yet both return false: the
scan is clamped to the first 1024 bytes. -/
theorem C5_magic_not_detected :
    ((bytesOf "#!/bin/sh\n#!dgsh").length = 16 ∧
      (bytesOf "#!/bin/sh\n#!dgsh")[9]? = some 10 ∧
      (∀ j, j < 9 → (bytesOf "#!/bin/sh\n#!dgsh")[j]? ≠ some 10) ∧
      ((bytesOf "#!/bin/sh\n#!dgsh").drop 10).take 6 = bytesOf "#!dgsh" ∧
      is_magic_script_dgsh_program (bytesOf "#!/bin/sh\n#!dgsh") 16 = some false ∧
      is_script_dgsh_program (bytesOf "#!/bin/sh\n#!dgsh") 16 = some false) ∧
    (longScript.length = 1038 ∧
      longScript[1030]? = some 10 ∧
      (∀ j, j < 1030 → longScript[j]? ≠ some 10) ∧
      (longScript.drop 1031).take 6 = bytesOf "#!dgsh" ∧
      is_magic_script_dgsh_program longScript (min 1038 1024) = some false ∧
      is_script_dgsh_program longScript 1038 = some false) := by
  refine ⟨by decide, longScript_length, ?_, longScript_no_newline, ?_, longScript_verdict⟩
  · rw [longScript_tail 0]; decide
  · have hl : (bytesOf "#!dgsh").length = 6 := by decide
    rw [← hl, slice_eq_iff]
    intro j hj
    have e : 1031 + j = 1030 + (1 + j) := by omega
    rw [e, longScript_tail (1 + j)]
    rw [hl] at hj
    have : j = 0 ∨ j = 1 ∨ j = 2 ∨ j = 3 ∨ j = 4 ∨ j = 5 := by omega
    rcases this with h | h | h | h | h | h <;> subst h <;> decide

/-- C5 (amended): second-line magic marker.  For every script view of `len` readable
bytes whose first line feed is at index `p`, if the six bytes after it are `#!dgsh` and
at least 7 bytes of the window `min len 1024` remain after that line feed, then
`is_magic_script_dgsh_program` (called on the window) and `is_script_dgsh_program`
return true. -/
theorem C5_magic_second_line (data : List Byte) (len p : Nat)
    (hlen : len ≤ data.length)
    (hp : data[p]? = some 10)
    (hfirst : ∀ j, j < p → data[j]? ≠ some 10)
    (hrem : 7 ≤ min len 1024 - (p + 1))
    (hmagic : (data.drop (p + 1)).take 6 = bytesOf "#!dgsh") :
    is_magic_script_dgsh_program data (min len 1024) = some true ∧
    is_script_dgsh_program data len = some true := by
  have hm : is_magic_script_dgsh_program data (min len 1024) = some true := by
    rw [is_magic_true_iff (by unfold SIZE_T_RANGE; omega)]
    exact ⟨p, memchr_eq_first _ 0 p (Nat.zero_le _) (by omega) hp (fun j _ hj => hfirst j hj),
      hrem, by omega, hmagic⟩
  refine ⟨hm, ?_⟩
  obtain ⟨a, b, c, v, _, _, _, hv, hs⟩ := is_script_eq_or hlen
  rw [hs]
  rw [hv] at hm
  cases hm
  cases a <;> cases b <;> cases c <;> rfl

/-- Witness for C5 (amended): `#!/bin/sh\n#!dgsh\n`, with 7 bytes after the line feed. -/
theorem C5_magic_second_line_witness :
    is_magic_script_dgsh_program (bytesOf "#!/bin/sh\n#!dgsh\n") (min 17 1024) = some true ∧
    is_script_dgsh_program (bytesOf "#!/bin/sh\n#!dgsh\n") 17 = some true :=
  C5_magic_second_line (bytesOf "#!/bin/sh\n#!dgsh\n") 17 9
    (by decide) (by decide) (by decide) (by decide) (by decide)

/-- C7: the script scanner never reads out of bounds.  For every byte sequence `data` and
every `len` not exceeding its length, `is_script_dgsh_program data len` returns a verdict,
and returns the same verdict when every byte at an index not below `min len 1024` is
removed from the view, so it reads only bytes below that index; the same holds for each
call of `linenstr` and for `is_magic_script_dgsh_program`; and the line feed found by
`memchr` lies inside the window, so the `size_t` subtraction `len -= ++line2 - data`
does not wrap. -/
theorem C7_script_scanner_in_bounds (data : List Byte) (len : Nat) (hlen : len ≤ data.length) :
    (∃ v, is_script_dgsh_program data len = some v ∧
      is_script_dgsh_program (data.take (min len 1024)) len = some v) ∧
    (∀ needle, ∃ r, linenstr data 0 needle (min len 1024) = some r ∧
      linenstr (data.take (min len 1024)) 0 needle (min len 1024) = some r) ∧
    (∃ v, is_magic_script_dgsh_program data (min len 1024) = some v ∧
      is_magic_script_dgsh_program (data.take (min len 1024)) (min len 1024) = some v) ∧
    (∀ p, memchr data 0 10 (min len 1024) = some (some p) →
      p + 1 ≤ min len 1024 ∧
      size_t_sub (min len 1024) (p + 1) = min len 1024 - (p + 1)) := by
  have hW : min len 1024 ≤ data.length := by omega
  have hR : min len 1024 < SIZE_T_RANGE := by unfold SIZE_T_RANGE; omega
  refine ⟨?_, fun needle => ?_, ?_, fun p hp => ?_⟩
  · obtain ⟨a, b, c, v, _, _, _, _, hs⟩ := is_script_eq_or hlen
    exact ⟨_, hs, by rw [is_script_take, hs]⟩
  · obtain ⟨r, hr⟩ := @linenstr_isSome data needle (min len 1024) 0
      (by omega)
    exact ⟨r, hr, by rw [linenstr_take _ 0 _ (by omega), hr]⟩
  · obtain ⟨v, hv⟩ := is_magic_isSome hW hR
    exact ⟨v, hv, by rw [is_magic_take (Nat.le_refl _) hR, hv]⟩
  · have h := (memchr_found _ 0 p hp).2.1
    exact ⟨by omega, size_t_sub_of_le (by omega) hR⟩

/-- Witness for C7: the script `#!/bin/sh\n#!dgsh\n`. -/
theorem C7_script_scanner_in_bounds_witness :
    ∃ v, is_script_dgsh_program (bytesOf "#!/bin/sh\n#!dgsh\n") 17 = some v ∧
      is_script_dgsh_program ((bytesOf "#!/bin/sh\n#!dgsh\n").take (min 17 1024)) 17 = some v :=
  (C7_script_scanner_in_bounds (bytesOf "#!/bin/sh\n#!dgsh\n") 17 (by decide)).1

/-- C9 (as stated, refuted): the script view `#!/usr/bin/env dgsh -x` contains no line
feed, yet `is_script_dgsh_program` returns true: the marker `env dgsh` is on its only
line. -/
theorem C9_no_newline_yet_compatible :
    (∀ j, j < 22 → (bytesOf "#!/usr/bin/env dgsh -x")[j]? ≠ some 10) ∧
    (bytesOf "#!/usr/bin/env dgsh -x").length = 22 ∧
    is_script_dgsh_program (bytesOf "#!/usr/bin/env dgsh -x") 22 = some true := by
  decide

/-- C9 (amended): for every script view of `len` readable bytes with no line feed among
its first `min len 1024` bytes, `is_magic_script_dgsh_program` returns false, and
`is_script_dgsh_program` returns true exactly when one of `dgsh-wrap`, `--dgsh`,
`env dgsh` occurs in the window followed by at least one more byte of it, false
otherwise. -/
theorem C9_no_newline (data : List Byte) (len : Nat) (hlen : len ≤ data.length)
    (hno : ∀ j, j < min len 1024 → data[j]? ≠ some 10) :
    is_magic_script_dgsh_program data (min len 1024) = some false ∧
    (is_script_dgsh_program data len = some true ↔
      ∃ m, m ∈ [bytesOf "dgsh-wrap", bytesOf "--dgsh", bytesOf "env dgsh"] ∧
        ∃ i, i + m.length < min len 1024 ∧ (data.drop i).take m.length = m) ∧
    (is_script_dgsh_program data len = some false ↔
      ¬ ∃ m, m ∈ [bytesOf "dgsh-wrap", bytesOf "--dgsh", bytesOf "env dgsh"] ∧
        ∃ i, i + m.length < min len 1024 ∧ (data.drop i).take m.length = m) :=
  script_without_newline hlen hno

/-- Witness for C9 (amended): the two-byte file `#!` has no line feed and is classified
not compatible. -/
theorem C9_no_newline_witness :
    is_magic_script_dgsh_program (bytesOf "#!") (min 2 1024) = some false ∧
    is_script_dgsh_program (bytesOf "#!") 2 = some false :=
  have h := C9_no_newline (bytesOf "#!") 2 (by decide) (by decide)
  ⟨h.1, h.2.2.mpr (fun ⟨_, hm, _, hi, _⟩ => by
    have := marker_length_ge hm
    omega)⟩

/-! ## Claims on the binary note scanner and the entry point -/

/-- The pointer returned by `mmap` gives access to no more than the file's bytes. -/
theorem mmap_view_length_le (file : List Byte) : (mmap file).view.length ≤ file.length := by
  unfold mmap
  split
  · simp [MapResult.view]
  · simp [MapResult.view]

/-- A file of at least two bytes that does not begin with `#!` is handed to the binary
scanner. -/
theorem is_dgsh_program_elf {t : Target} {data : List Byte} (h2 : 2 ≤ data.length)
    (hne : data.take 2 ≠ bytesOf "#!") :
    is_dgsh_program t (some data) = is_elf_dgsh_program t data := by
  unfold is_dgsh_program mmap
  simp only
  rw [if_neg (by omega)]
  simp only [MapResult.view]
  cases hm : memcmp data 0 (bytesOf "#!") 2 with
  | none => rw [memcmp_eq_none_iff] at hm; omega
  | some r =>
    rw [memcmp_eq_some_iff] at hm
    simp only
    rw [if_neg]
    intro hr
    subst hr
    have h := (cmpBytes_eq_zero_iff _ _).mp hm.2
    have ht : (bytesOf "#!").take 2 = bytesOf "#!" := by decide
    rw [ht, List.drop_zero] at h
    exact hne h

/-- A file of at least two bytes that begins with `#!` is handed to the script scanner
with its length. -/
theorem is_dgsh_program_script {t : Target} {data : List Byte} (h2 : 2 ≤ data.length)
    (he : data.take 2 = bytesOf "#!") :
    is_dgsh_program t (some data) = is_script_dgsh_program data data.length := by
  unfold is_dgsh_program mmap
  simp only
  rw [if_neg (by omega)]
  simp only [MapResult.view]
  cases hm : memcmp data 0 (bytesOf "#!") 2 with
  | none => rw [memcmp_eq_none_iff] at hm; omega
  | some r =>
    rw [memcmp_eq_some_iff] at hm
    simp only
    rw [if_pos]
    have ht : (bytesOf "#!").take 2 = bytesOf "#!" := by decide
    rw [← hm.2, cmpBytes_eq_zero_iff, ht, List.drop_zero]
    exact he

theorem wellFormed_not_script {t : Target} {data : List Byte} (hwf : WellFormedElf t data) :
    2 ≤ data.length ∧ data.take 2 ≠ bytesOf "#!" := by
  have hid := hwf.ident
  have hlen : 2 ≤ data.length := by
    have := congrArg List.length hid
    simp at this
    omega
  refine ⟨hlen, fun h => ?_⟩
  have h2 : (data.take 4).take 2 = data.take 2 := by
    rw [List.take_take]; rfl
  rw [hid, h] at h2
  revert h2
  decide

theorem wellFormed_eq_loop {t : Target} {data : List Byte} (hwf : WellFormedElf t data) :
    is_elf_dgsh_program t data =
      has_dgsh_section_loop t data (e_shoff t data) (strtab_offset t data) 0
        (e_shnum t data) :=
  is_elf_eq_loop hwf.header (entry_inside_table hwf.table hwf.strndx)

/-- C1: round trip, positive direction.  For every well-formed ELF file that contains a
section named `.note.ident` whose content starts with a note header with `n_namesz = 16`
immediately followed by `DSpinellis/dgsh` and its NUL terminator,
`is_elf_dgsh_program` returns true, and so does `is_dgsh_program` on that file. -/
theorem C1_elf_round_trip_positive (t : Target) (data : List Byte) (k : Nat)
    (hwf : WellFormedElf t data) (hk : k < e_shnum t data)
    (hname : namedNoteIdent t data k) (hnote : noteMatches t data k) :
    is_elf_dgsh_program t data = some true ∧ is_dgsh_program t (some data) = some true := by
  have h : is_elf_dgsh_program t data = some true := by
    rw [wellFormed_eq_loop hwf]
    refine loop_true_of_body _ 0 k (Nat.zero_le _) (by omega) ?_ (fun i _ hi => ?_)
    · rw [body_spec hwf hk]
      simp [hname, hnote]
    · exact ⟨_, body_spec hwf (by omega)⟩
  obtain ⟨h2, hne⟩ := wellFormed_not_script hwf
  exact ⟨h, by rw [is_dgsh_program_elf h2 hne, h]⟩

/-- Witness for C1: the 224-byte sample file with the note `DSpinellis/dgsh` in section 2. -/
theorem C1_elf_round_trip_positive_witness :
    is_elf_dgsh_program elf32le (sampleElf 3 (DGSH_NAME ++ [0])) = some true ∧
    is_dgsh_program elf32le (some (sampleElf 3 (DGSH_NAME ++ [0]))) = some true :=
  C1_elf_round_trip_positive elf32le (sampleElf 3 (DGSH_NAME ++ [0])) 2
    ⟨by decide, by decide, by decide, by decide, by decide, by decide, by decide⟩
    (by decide) (by decide) (by decide)

/-- C2: round trip, negative direction.  For every well-formed ELF file with exactly one
section named `.note.ident`, if that section's note has `n_namesz` different from 16, or
one of the 16 bytes following the note header differs from the corresponding byte of
`DSpinellis/dgsh` plus NUL, then `is_elf_dgsh_program` returns false. -/
theorem C2_elf_round_trip_negative (t : Target) (data : List Byte) (k : Nat)
    (hwf : WellFormedElf t data) (hk : k < e_shnum t data)
    (hname : namedNoteIdent t data k)
    (huniq : ∀ i, i < e_shnum t data → namedNoteIdent t data i → i = k)
    (hdiff : n_namesz t data k ≠ 16 ∨
      ∃ j, j < 16 ∧ data[sh_offset t data k + sizeof_Nhdr + j]? ≠ (DGSH_NAME ++ [0])[j]?) :
    is_elf_dgsh_program t data = some false := by
  rw [wellFormed_eq_loop hwf]
  apply loop_false_of_bodies
  intro i _ hi
  rw [body_spec hwf (by omega)]
  have hnot : ¬ (namedNoteIdent t data i ∧ noteMatches t data i) := by
    rintro ⟨hn, hm⟩
    have hik := huniq i (by omega) hn
    subst hik
    rcases hdiff with h16 | ⟨j, hj, hne⟩
    · exact h16 hm.1
    · have hlen : (DGSH_NAME ++ [0]).length = 16 := by decide
      have hs := hm.2
      rw [← hlen] at hs
      exact hne (slice_eq_iff.mp hs j (by omega))
  simp [hnot]

/-- Witness for C2: the sample file with the last letter of the note's name changed. -/
theorem C2_elf_round_trip_negative_witness :
    is_elf_dgsh_program elf32le (sampleElf 3 (bytesOf "DSpinellis/dgsH" ++ [0])) = some false :=
  C2_elf_round_trip_negative elf32le (sampleElf 3 (bytesOf "DSpinellis/dgsH" ++ [0])) 2
    ⟨by decide, by decide, by decide, by decide, by decide, by decide, by decide⟩
    (by decide) (by decide) (by decide) (Or.inr ⟨14, by decide, by decide⟩)

/-- C8 (as stated, refuted): on the 10-byte view `\x7fELF` followed by six zero bytes,
shorter than the 52-byte header, `is_elf_dgsh_program` does not return false: it
reads header fields that lie past the end of the view. -/
theorem C8_short_view_read_out_of_bounds :
    ([127, 69, 76, 70] ++ zeros 6).length = 10 ∧
    is_elf_dgsh_program elf32le ([127, 69, 76, 70] ++ zeros 6) = none ∧
    is_elf_dgsh_program ⟨.elf64, false⟩ ([127, 69, 76, 70] ++ zeros 6) = none := by
  decide

/-- C8 (amended): `is_elf_dgsh_program` receives no length and makes no size check.  For
every view shorter than the ELF header it reads the header field `e_shstrndx`, whose
last byte lies at or past the end of the view, so it returns no verdict from reads inside
the view. -/
theorem C8_short_view_no_verdict (t : Target) (data : List Byte)
    (hshort : data.length < sizeof_Ehdr t.cls) :
    readField t data (offsetof_e_shstrndx t.cls) 2 = none ∧
    is_elf_dgsh_program t data = none := by
  obtain ⟨_, _, _, _, f5⟩ := field_inside_entry t.cls
  have h : readField t data (offsetof_e_shstrndx t.cls) 2 = none :=
    readField_eq_none_iff.mpr (by omega)
  refine ⟨h, ?_⟩
  unfold is_elf_dgsh_program
  rw [h]
  cases readField t data (offsetof_e_shoff t.cls) (sizeof_Off t.cls) <;> rfl

/-- Witness for C8 (amended): the first 40 bytes of the sample file. -/
theorem C8_short_view_no_verdict_witness :
    readField elf32le ((sampleElf 3 (DGSH_NAME ++ [0])).take 40)
      (offsetof_e_shstrndx elf32le.cls) 2 = none ∧
    is_elf_dgsh_program elf32le ((sampleElf 3 (DGSH_NAME ++ [0])).take 40) = none :=
  C8_short_view_no_verdict elf32le ((sampleElf 3 (DGSH_NAME ++ [0])).take 40) (by decide)

/-- C10 (as stated, refuted): on the one-byte file `#`, `is_dgsh_program` does not return
false without reading byte index 1: its first step, `memcmp(data, "#!", 2)`, reads the
bytes at indices 0 and 1, and index 1 is past the end of the file. -/
theorem C10_one_byte_file_reads_index_one :
    memcmp (mmap (bytesOf "#")).view 0 (bytesOf "#!") 2 = none ∧
    is_dgsh_program elf32le (some (bytesOf "#")) = none := by
  decide

/-- C10 (amended): `is_dgsh_program` makes no length check.  For every file of length 1
its first step compares the two bytes at indices 0 and 1 with `#!`, and so reads byte
index 1, past the end of the file: no verdict is returned from reads inside the file.
A path that cannot be opened is classified not compatible. -/
theorem C10_one_byte_file_no_verdict (t : Target) (file : List Byte)
    (hlen : file.length = 1) :
    memcmp (mmap file).view 0 (bytesOf "#!") 2 = none ∧
    is_dgsh_program t (some file) = none ∧
    is_dgsh_program t none = some false := by
  have h : memcmp (mmap file).view 0 (bytesOf "#!") 2 = none := by
    rw [memcmp_eq_none_iff]
    have := mmap_view_length_le file
    omega
  refine ⟨h, ?_, rfl⟩
  unfold is_dgsh_program
  simp only
  rw [h]

/-- Witness for C10 (amended): the one-byte file `\x7f`. -/
theorem C10_one_byte_file_no_verdict_witness :
    memcmp (mmap [127]).view 0 (bytesOf "#!") 2 = none ∧
    is_dgsh_program elf32le (some [127]) = none ∧
    is_dgsh_program elf32le none = some false :=
  C10_one_byte_file_no_verdict elf32le [127] (by decide)

/-! ## Exact verdict of the note scan -/

/-- A loop body that yields a value yields true exactly when the entry is a
`.note.ident` section whose first note record matches. -/
theorem body_some_iff {t : Target} {data : List Byte} {shdr strTab i : Nat} {b : Bool}
    (h : has_dgsh_section_body t data shdr strTab i = some b) :
    b = true ↔ entryNamedNoteIdent t data shdr strTab i ∧ entryNoteMatches t data shdr i := by
  unfold has_dgsh_section_body at h
  simp only at h
  cases h1 : readField t data (shdr + i * sizeof_Shdr t.cls) 4 with
  | none => rw [h1] at h; simp at h
  | some nm =>
    rw [h1] at h
    simp only at h
    have enm : nm = entry_sh_name t data shdr i := (readField_eq_some h1).2
    subst enm
    cases h2 : strcmp data (strTab + entry_sh_name t data shdr i) NOTE_IDENT with
    | none => rw [h2] at h; simp at h
    | some c =>
      rw [h2] at h
      simp only at h
      by_cases hc0 : c = 0
      · subst hc0
        have hnamed : entryNamedNoteIdent t data shdr strTab i :=
          (strcmp_eq_zero_iff _ _).mp h2
        rw [if_neg (by simp)] at h
        cases h3 : readField t data (shdr + i * sizeof_Shdr t.cls + offsetof_sh_offset t.cls)
            (sizeof_Off t.cls) with
        | none => rw [h3] at h; simp at h
        | some so =>
          rw [h3] at h
          simp only at h
          have eso : so = entry_sh_offset t data shdr i := (readField_eq_some h3).2
          subst eso
          cases h4 : readField t data (entry_sh_offset t data shdr i) 4 with
          | none => rw [h4] at h; simp at h
          | some ns =>
            rw [h4] at h
            simp only at h
            have ens : ns = getField t data (entry_sh_offset t data shdr i) 4 :=
              (readField_eq_some h4).2
            rw [sizeof_DGSH_NAME_eq] at h
            by_cases h16 : ns = 16
            · rw [if_pos h16] at h
              cases h5 : memcmp data (entry_sh_offset t data shdr i + sizeof_Nhdr)
                  (DGSH_NAME ++ [0]) 16 with
              | none => rw [h5] at h; simp at h
              | some r =>
                rw [h5] at h
                simp only [Option.some.injEq] at h
                rw [memcmp_eq_some_iff] at h5
                have ht : (DGSH_NAME ++ [0]).take 16 = DGSH_NAME ++ [0] := by decide
                rw [ht] at h5
                subst h
                constructor
                · intro hr
                  have hr0 : r = 0 := by simpa using hr
                  subst hr0
                  exact ⟨hnamed, by rw [← ens]; exact h16, (cmpBytes_eq_zero_iff _ _).mp h5.2⟩
                · rintro ⟨_, _, hs⟩
                  have : r = 0 := by rw [← h5.2, cmpBytes_eq_zero_iff]; exact hs
                  simp [this]
            · rw [if_neg h16] at h
              simp only [Option.some.injEq] at h
              subst h
              constructor
              · intro hf; cases hf
              · rintro ⟨_, hm, _⟩
                exact absurd (ens ▸ hm) h16
      · rw [if_pos hc0] at h
        simp only [Option.some.injEq] at h
        subst h
        constructor
        · intro hf; cases hf
        · rintro ⟨hn, _⟩
          have := (strcmp_eq_zero_iff _ _).mpr hn
          rw [h2] at this
          simp at this
          exact absurd this hc0

theorem body_true_of_loop_true {t : Target} {data : List Byte} {shdr strTab : Nat} :
    ∀ (n a : Nat), has_dgsh_section_loop t data shdr strTab a n = some true →
      ∃ i, a ≤ i ∧ i < a + n ∧ has_dgsh_section_body t data shdr strTab i = some true
  | 0, _, h => by simp [has_dgsh_section_loop] at h
  | n + 1, a, h => by
    simp only [has_dgsh_section_loop] at h
    cases hb : has_dgsh_section_body t data shdr strTab a with
    | none => rw [hb] at h; simp at h
    | some v =>
      rw [hb] at h
      cases v with
      | true => exact ⟨a, Nat.le_refl _, by omega, hb⟩
      | false =>
        obtain ⟨i, h1, h2, h3⟩ := body_true_of_loop_true n (a + 1) h
        exact ⟨i, by omega, by omega, h3⟩

/-- A verdict of `has_dgsh_section` is true exactly when one of the `shNum` entries is a
`.note.ident` section whose first note record matches. -/
theorem has_dgsh_section_some_iff {t : Target} {data : List Byte} {shdr strTab shNum : Nat}
    {v : Bool} (h : has_dgsh_section t shdr strTab shNum data = some v) :
    v = true ↔ ∃ i, i < shNum ∧ entryNamedNoteIdent t data shdr strTab i ∧
      entryNoteMatches t data shdr i := by
  unfold has_dgsh_section at h
  constructor
  · intro hv
    subst hv
    obtain ⟨i, _, h2, h3⟩ := body_true_of_loop_true shNum 0 h
    exact ⟨i, by omega, (body_some_iff h3).mp rfl⟩
  · rintro ⟨i, hi, hn⟩
    cases v with
    | true => rfl
    | false =>
      have hb := bodies_of_loop_false shNum 0 h i (Nat.zero_le _) (by omega)
      exact ((body_some_iff hb).mpr hn)

theorem namedNoteIdent_iff_entry {t : Target} {data : List Byte} {i : Nat} :
    namedNoteIdent t data i ↔
      entryNamedNoteIdent t data (e_shoff t data) (strtab_offset t data) i := Iff.rfl

theorem noteMatches_iff_entry {t : Target} {data : List Byte} {i : Nat} :
    noteMatches t data i ↔ entryNoteMatches t data (e_shoff t data) i := Iff.rfl

/-- A verdict of `is_elf_dgsh_program` is true exactly when one of the `e_shnum` declared
entries is a `.note.ident` section whose first note record matches. -/
theorem is_elf_some_iff {t : Target} {data : List Byte} {v : Bool}
    (h : is_elf_dgsh_program t data = some v) :
    v = true ↔ ∃ i, i < e_shnum t data ∧ namedNoteIdent t data i ∧ noteMatches t data i := by
  have hl := is_elf_some h
  have := @has_dgsh_section_some_iff t data (e_shoff t data) (strtab_offset t data)
    (e_shnum t data) v hl
  rw [this]
  constructor
  · rintro ⟨i, hi, hn, hm⟩
    exact ⟨i, hi, namedNoteIdent_iff_entry.mpr hn, noteMatches_iff_entry.mpr hm⟩
  · rintro ⟨i, hi, hn, hm⟩
    exact ⟨i, hi, namedNoteIdent_iff_entry.mp hn, noteMatches_iff_entry.mp hm⟩

theorem loop_ne_none {t : Target} {data : List Byte} {shdr strTab : Nat} :
    ∀ (n a : Nat),
      (∀ i, a ≤ i → i < a + n → ∃ b, has_dgsh_section_body t data shdr strTab i = some b) →
      has_dgsh_section_loop t data shdr strTab a n ≠ none
  | 0, _, _ => by simp [has_dgsh_section_loop]
  | n + 1, a, h => by
    simp only [has_dgsh_section_loop]
    obtain ⟨b, hb⟩ := h a (Nat.le_refl _) (by omega)
    rw [hb]
    cases b with
    | true => simp
    | false => exact loop_ne_none n (a + 1) (fun i h1 h2 => h i (by omega) (by omega))

/-! ## Further facts on the script scanner -/

theorem marker_has_no_newline {m : List Byte}
    (hm : m ∈ [bytesOf "dgsh-wrap", bytesOf "--dgsh", bytesOf "env dgsh"]) (j : Nat) :
    m[j]? ≠ some 10 := by
  intro h
  have hmem := List.getElem?_mem h
  simp only [List.mem_cons, List.mem_singleton, List.not_mem_nil, or_false] at hm
  rcases hm with e | e | e <;> subst e <;> revert hmem <;> decide

/-- A true verdict of the script scanner comes from a marker inside the window. -/
theorem is_script_true_marker {data : List Byte} {len : Nat}
    (h : is_script_dgsh_program data len = some true) :
    ∃ m, m ∈ [bytesOf "dgsh-wrap", bytesOf "--dgsh", bytesOf "env dgsh", bytesOf "#!dgsh"] ∧
      m <:+: data.take (min len 1024) := by
  rcases is_script_true_cases h with h1 | h1 | h1 | h1
  · exact ⟨_, by simp, linenstr_found_occurs h1⟩
  · exact ⟨_, by simp, linenstr_found_occurs h1⟩
  · exact ⟨_, by simp, linenstr_found_occurs h1⟩
  · obtain ⟨p, _, h7, _, hmag⟩ :=
      (is_magic_true_iff (by unfold SIZE_T_RANGE; omega)).mp h1
    refine ⟨bytesOf "#!dgsh", by simp, ?_⟩
    have : bytesOf "#!dgsh" = magic := rfl
    rw [this, ← hmag]
    exact slice_within_take (by omega)

/-- The script scanner uses `len` only through the clamp. -/
theorem is_script_len_clamp (data : List Byte) (len : Nat) :
    is_script_dgsh_program data len = is_script_dgsh_program data (min len 1024) := by
  unfold is_script_dgsh_program
  simp only [clamp_eq_min]
  have : min (min len 1024) 1024 = min len 1024 := by omega
  rw [this]

/-- The script scanner always returns a verdict on a view of at least `len` bytes. -/
theorem is_script_isSome {data : List Byte} {len : Nat} (hlen : len ≤ data.length) :
    ∃ v, is_script_dgsh_program data len = some v := by
  obtain ⟨a, b, c, m, _, _, _, _, hs⟩ := is_script_eq_or hlen
  exact ⟨_, hs⟩

/-- Exact condition for a true verdict of the script scanner on a readable view. -/
theorem is_script_true_iff {data : List Byte} {len : Nat} (hlen : len ≤ data.length) :
    is_script_dgsh_program data len = some true ↔
      markerOnFirstLine data (min len 1024) ∨ magicOnSecondLine data (min len 1024) := by
  unfold markerOnFirstLine magicOnSecondLine
  have hR : min len 1024 < SIZE_T_RANGE := by unfold SIZE_T_RANGE; omega
  constructor
  · intro h
    have aux : ∀ m, linenstr_found data m (min len 1024) = some true →
        ∃ i, i + m.length < min len 1024 ∧ (∀ j, j < i → data[j]? ≠ some 10) ∧
          (data.drop i).take m.length = m := by
      intro m h1
      obtain ⟨p, hp⟩ := linenstr_found_true_iff.mp h1
      obtain ⟨_, h2, _, h4, h5, _⟩ := linenstr_some_spec _ 0 p hp
      exact ⟨p, by omega, fun j hj => h5 j (Nat.zero_le _) (by omega), h4⟩
    rcases is_script_true_cases h with h1 | h1 | h1 | h1
    · exact Or.inl ⟨_, by simp, aux _ h1⟩
    · exact Or.inl ⟨_, by simp, aux _ h1⟩
    · exact Or.inl ⟨_, by simp, aux _ h1⟩
    · obtain ⟨p, hp, h7, _, hmag⟩ := (is_magic_true_iff hR).mp h1
      obtain ⟨_, q2, q3, q4⟩ := memchr_found _ 0 p hp
      exact Or.inr ⟨p, by omega, q3, fun j hj => q4 j (Nat.zero_le _) hj, h7, hmag⟩
  · rintro (⟨m, hmem, i, hi, hline, hocc⟩ | ⟨p, hp, hp10, hfirst, h7, hmag⟩)
    · exact is_script_true_of_linenstr hmem hlen
        (linenstr_found_of_occurrence hmem (by omega) hi hocc hline)
    · have hm : is_magic_script_dgsh_program data (min len 1024) = some true := by
        rw [is_magic_true_iff hR]
        exact ⟨p, memchr_eq_first _ 0 p (Nat.zero_le _) (by omega) hp10
          (fun j _ hj => hfirst j hj), h7, by omega, hmag⟩
      obtain ⟨a, b, c, v, _, _, _, hv, hs⟩ := is_script_eq_or hlen
      rw [hs]
      rw [hv] at hm
      cases hm
      cases a <;> cases b <;> cases c <;> rfl

/-! ## Scripts whose first line is `#!dgsh` -/

theorem magicFirst_length (rest : List Byte) :
    (bytesOf "#!dgsh\n" ++ rest).length = 7 + rest.length := by
  have h : (bytesOf "#!dgsh\n").length = 7 := by decide
  rw [List.length_append, h]

theorem magicFirst_head (rest : List Byte) (j : Nat) (hj : j < 7) :
    (bytesOf "#!dgsh\n" ++ rest)[j]? = (bytesOf "#!dgsh\n")[j]? :=
  List.getElem?_append_left (by
    have h : (bytesOf "#!dgsh\n").length = 7 := by decide
    omega)

theorem magicFirst_starts (rest : List Byte) :
    (bytesOf "#!dgsh\n" ++ rest).take 2 = bytesOf "#!" := by
  rw [List.take_append_of_le_length (by decide)]
  decide

/-- On a script whose first line is `#!dgsh` and that has fewer than 6 bytes after the
line feed, the script scanner returns false. -/
theorem magicFirst_verdict (rest : List Byte) (hrest : rest.length < 6) :
    is_script_dgsh_program (bytesOf "#!dgsh\n" ++ rest) (bytesOf "#!dgsh\n" ++ rest).length
      = some false := by
  have hlen := magicFirst_length rest
  obtain ⟨v, hv⟩ := @is_script_isSome (bytesOf "#!dgsh\n" ++ rest) _ (Nat.le_refl _)
  cases v with
  | false => exact hv
  | true =>
    exfalso
    have h6 : (bytesOf "#!dgsh\n" ++ rest)[6]? = some 10 := by
      rw [magicFirst_head rest 6 (by omega)]; decide
    rcases (is_script_true_iff (Nat.le_refl _)).mp hv with
      ⟨m, hmem, i, hi, hline, hocc⟩ | ⟨p, hp, hp10, hfirst, h7, _⟩
    · obtain ⟨hm6, hm0⟩ := marker_length_ge hmem
      have hi6 : i ≤ 6 := by
        by_contra hcon
        exact hline 6 (by omega) h6
      have hb := slice_eq_iff.mp hocc
      by_cases hi0 : i = 0
      · subst hi0
        have h0 := hb 0 (by omega)
        rw [Nat.add_zero, magicFirst_head rest 0 (by omega)] at h0
        have e0 : (bytesOf "#!dgsh\n")[0]? = some 35 := by decide
        rw [e0] at h0
        rcases hm0 with f | f | f <;> rw [f] at h0 <;> exact absurd h0 (by decide)
      · have h1 := hb (6 - i) (by omega)
        have e : i + (6 - i) = 6 := by omega
        rw [e, h6] at h1
        exact marker_has_no_newline hmem (6 - i) h1.symm
    · have hp4 : p < 5 := by omega
      rw [magicFirst_head rest p (by omega)] at hp10
      have : p = 0 ∨ p = 1 ∨ p = 2 ∨ p = 3 ∨ p = 4 := by omega
      rcases this with e | e | e | e | e <;> subst e <;> revert hp10 <;> decide

/-! ## Claims C11 to C18 -/

/-- C12: for every script file that begins with `#!dgsh` followed by a line feed and has
fewer than 6 bytes after that line feed (including none), `is_dgsh_program` returns
false, reading no byte at or past the end of the file. -/
theorem C12_magic_first_line_short (t : Target) (rest : List Byte) (hrest : rest.length < 6) :
    is_dgsh_program t (some (bytesOf "#!dgsh\n" ++ rest)) = some false := by
  rw [is_dgsh_program_script (by rw [magicFirst_length]; omega) (magicFirst_starts rest)]
  exact magicFirst_verdict rest hrest

/-- Witness for C12: the file `#!dgsh\n` followed by `rest\n`. -/
theorem C12_magic_first_line_short_witness :
    is_dgsh_program elf32le (some (bytesOf "#!dgsh\n" ++ bytesOf "rest\n")) = some false :=
  C12_magic_first_line_short elf32le (bytesOf "rest\n") (by decide)

/-- C13: scenario D.  For every well-formed ELF file in which none of the `e_shnum`
section-header entries has the name `.note.ident`, `is_elf_dgsh_program` returns false,
and so does `is_dgsh_program`. -/
theorem C13_no_note_section (t : Target) (data : List Byte) (hwf : WellFormedElf t data)
    (hnone : ∀ i, i < e_shnum t data → ¬ namedNoteIdent t data i) :
    is_elf_dgsh_program t data = some false ∧ is_dgsh_program t (some data) = some false := by
  have h : is_elf_dgsh_program t data = some false := by
    rw [wellFormed_eq_loop hwf]
    apply loop_false_of_bodies
    intro i _ hi
    rw [body_spec hwf (by omega)]
    have hn := hnone i (by omega)
    simp [hn]
  obtain ⟨h2, hne⟩ := wellFormed_not_script hwf
  exact ⟨h, by rw [is_dgsh_program_elf h2 hne, h]⟩

/-- Witness for C13: the sample file declaring only its null section and `.shstrtab`. -/
theorem C13_no_note_section_witness :
    is_elf_dgsh_program elf32le (sampleElf 2 (DGSH_NAME ++ [0])) = some false ∧
    is_dgsh_program elf32le (some (sampleElf 2 (DGSH_NAME ++ [0]))) = some false :=
  C13_no_note_section elf32le (sampleElf 2 (DGSH_NAME ++ [0]))
    ⟨by decide, by decide, by decide, by decide, by decide, by decide, by decide⟩
    (by decide)

/-- C14: the 1024-byte clamp.  Two script views of length at least 1024 that agree on
their first 1024 bytes get the same verdict from `is_script_dgsh_program` (called with
lengths `l1`, `l2` of at least 1024, the first view holding `l1` bytes), and a view
whose first 1024 bytes contain none of the markers is classified not compatible, whatever
follows. -/
theorem C14_clamp_window (d1 d2 : List Byte) (l1 l2 : Nat)
    (h1 : 1024 ≤ l1) (h1b : l1 ≤ d1.length) (h2 : 1024 ≤ l2)
    (hagree : d1.take 1024 = d2.take 1024) :
    (∃ v, is_script_dgsh_program d1 l1 = some v ∧ is_script_dgsh_program d2 l2 = some v) ∧
    ((∀ m, m ∈ [bytesOf "dgsh-wrap", bytesOf "--dgsh", bytesOf "env dgsh", bytesOf "#!dgsh"] →
        ¬ m <:+: d1.take 1024) →
      is_script_dgsh_program d1 l1 = some false) := by
  have e1 : min l1 1024 = 1024 := by omega
  have e2 : min l2 1024 = 1024 := by omega
  have hsame : is_script_dgsh_program d1 l1 = is_script_dgsh_program d2 l2 := by
    have a1 := @is_script_take d1 l1
    have a2 := @is_script_take d2 l2
    rw [e1] at a1
    rw [e2] at a2
    rw [← a1, ← a2, hagree, is_script_len_clamp _ l1, is_script_len_clamp _ l2, e1, e2]
  obtain ⟨v, hv⟩ := is_script_isSome h1b
  refine ⟨⟨v, hv, by rw [← hsame, hv]⟩, fun hno => ?_⟩
  cases v with
  | false => exact hv
  | true =>
    obtain ⟨m, hm, hin⟩ := is_script_true_marker hv
    rw [e1] at hin
    exact absurd hin (hno m hm)

/-- Witness for C14: `longScript` and its first 1024 bytes followed by `xyz`. -/
theorem C14_clamp_window_witness :
    ∃ v, is_script_dgsh_program longScript 1038 = some v ∧
      is_script_dgsh_program (longScript.take 1024 ++ bytesOf "xyz") 1027 = some v :=
  (C14_clamp_window longScript (longScript.take 1024 ++ bytesOf "xyz") 1038 1027
    (by decide) (by rw [longScript_length])
    (by decide)
    (by
      rw [List.take_append_of_le_length (by rw [List.length_take, longScript_length]; decide),
        List.take_take]
      rfl)).1

/-- C15 (as stated, refuted), twice.  In `sampleStrndxOutside` the header has
`e_shstrndx = 1`, not below `e_shnum = 1`; in `sampleStrtabOutside` the string-table
section declares the range 52..100052, outside a 252-byte file.  On both,
`is_elf_dgsh_program` returns true with every read inside the file. -/
theorem C15_no_strtab_validation :
    (e_shstrndx elf32le sampleStrndxOutside = 1 ∧ e_shnum elf32le sampleStrndxOutside = 1 ∧
      is_elf_dgsh_program elf32le sampleStrndxOutside = some true) ∧
    (sampleStrtabOutside.length = 252 ∧
      strtab_offset elf32le sampleStrtabOutside + strtab_size elf32le sampleStrtabOutside
        = 100052 ∧
      is_elf_dgsh_program elf32le sampleStrtabOutside = some true) := by
  decide

/-- C15 (amended): the string-table index and range are not validated.  Whenever
`is_elf_dgsh_program` returns a verdict (every byte it reads lies inside the file), the
verdict is true exactly when one of the `e_shnum` declared entries is named
`.note.ident`, the name being read in the section that entry `e_shstrndx` designates,
and holds the matching note; whether `e_shstrndx < e_shnum` and what size that
section declares play no part. -/
theorem C15_verdict_without_validation (t : Target) (data : List Byte) (v : Bool)
    (h : is_elf_dgsh_program t data = some v) :
    v = true ↔ ∃ i, i < e_shnum t data ∧ namedNoteIdent t data i ∧ noteMatches t data i :=
  is_elf_some_iff h

/-- Witness for C15 (amended): the file with `e_shstrndx = e_shnum = 1`. -/
theorem C15_verdict_without_validation_witness :
    ∃ i, i < e_shnum elf32le sampleStrndxOutside ∧
      namedNoteIdent elf32le sampleStrndxOutside i ∧ noteMatches elf32le sampleStrndxOutside i :=
  (C15_verdict_without_validation elf32le sampleStrndxOutside true (by decide)).mp rfl

/-- C16 (code evaluated at the failing input): in the 19-byte script `#!/usr/bin/env dgsh`
the needle `env dgsh` occurs at offset 11, entirely within the first 19 bytes, and there
is no line feed; `linenstr` with `hlen = 19` returns `NULL` and the script is classified
not compatible.  With one more byte in the haystack the same occurrence is returned. -/
theorem C16_linenstr_misses_needle_at_end :
    ((bytesOf "#!/usr/bin/env dgsh").drop 11).take 8 = bytesOf "env dgsh" ∧
    (bytesOf "#!/usr/bin/env dgsh").length = 19 ∧
    (∀ j, j < 19 → (bytesOf "#!/usr/bin/env dgsh")[j]? ≠ some 10) ∧
    linenstr (bytesOf "#!/usr/bin/env dgsh") 0 (bytesOf "env dgsh") 19 = some none ∧
    is_script_dgsh_program (bytesOf "#!/usr/bin/env dgsh") 19 = some false ∧
    is_dgsh_program elf32le (some (bytesOf "#!/usr/bin/env dgsh")) = some false ∧
    linenstr (bytesOf "#!/usr/bin/env dgsh\n") 0 (bytesOf "env dgsh") 20 = some (some 11) := by
  decide

/-- C17: exact characterisation of the script scanner.  With `W = min len 1024`, on a view
of at least `len` bytes `is_script_dgsh_program` returns true if and only if (a) a
marker lies on the first line with at least one more byte of the window after it, or (b)
the first line feed of the window is followed by `#!dgsh` with at least 7 bytes of the
window after the line feed; otherwise it returns false. -/
theorem C17_script_scanner_exact (data : List Byte) (len : Nat) (hlen : len ≤ data.length) :
    (is_script_dgsh_program data len = some true ↔
      markerOnFirstLine data (min len 1024) ∨ magicOnSecondLine data (min len 1024)) ∧
    (is_script_dgsh_program data len = some false ↔
      ¬ (markerOnFirstLine data (min len 1024) ∨ magicOnSecondLine data (min len 1024))) := by
  have hiff : is_script_dgsh_program data len = some true ↔
      markerOnFirstLine data (min len 1024) ∨ magicOnSecondLine data (min len 1024) :=
    is_script_true_iff hlen
  refine ⟨hiff, ?_⟩
  rw [← hiff]
  obtain ⟨v, hv⟩ := is_script_isSome hlen
  rw [hv]
  cases v <;> simp

/-- Witness for C17: `#!/usr/bin/env dgsh\n` satisfies case (a) with `env dgsh` at offset 11. -/
theorem C17_script_scanner_exact_witness :
    is_script_dgsh_program (bytesOf "#!/usr/bin/env dgsh\n") 20 = some true :=
  (C17_script_scanner_exact (bytesOf "#!/usr/bin/env dgsh\n") 20 (by decide)).1.mpr
    (Or.inl ⟨bytesOf "env dgsh", by decide, 11, by decide, by decide, by decide⟩)

/-- C18: exact characterisation of the note scan.  Whenever `has_dgsh_section` returns a
verdict (every read in bounds), the verdict is true if and only if some index
`i < shNum` has the string `.note.ident` at `strTab + shdr[i].sh_name` and a first note
record at `data + shdr[i].sh_offset` with `n_namesz = 16` followed, after the 12-byte
header, by `DSpinellis/dgsh` and NUL.  A verdict exists when every loop body reads in
bounds.  Only the first record counts (`sampleSecondRecord`, whose second record
matches, gives false) and a non-matching `.note.ident` section does not end the scan
(`sampleTwoNoteSections` gives true). -/
theorem C18_note_scan_exact (t : Target) (data : List Byte) (shdr strTab shNum : Nat) :
    (∀ v, has_dgsh_section t shdr strTab shNum data = some v →
      (v = true ↔ ∃ i, i < shNum ∧ entryNamedNoteIdent t data shdr strTab i ∧
        entryNoteMatches t data shdr i)) ∧
    ((∀ i, i < shNum → ∃ b, has_dgsh_section_body t data shdr strTab i = some b) →
      ∃ v, has_dgsh_section t shdr strTab shNum data = some v) ∧
    ((sampleSecondRecord.drop (104 + 12)).take 16 = DGSH_NAME ++ [0] ∧
      has_dgsh_section elf32le 132 52 3 sampleSecondRecord = some false) ∧
    (entryNamedNoteIdent elf32le sampleTwoNoteSections 132 52 0 ∧
      ¬ entryNoteMatches elf32le sampleTwoNoteSections 132 0 ∧
      has_dgsh_section elf32le 132 52 3 sampleTwoNoteSections = some true) := by
  refine ⟨fun v h => has_dgsh_section_some_iff h, fun hb => ?_, by decide, by decide⟩
  cases h : has_dgsh_section t shdr strTab shNum data with
  | some v => exact ⟨v, rfl⟩
  | none =>
    exfalso
    exact loop_ne_none shNum 0 (fun i _ hi => hb i (by omega)) h

/-- Witness for C18: in `sampleTwoNoteSections` the verdict true comes with an index. -/
theorem C18_note_scan_exact_witness :
    ∃ i, i < 3 ∧ entryNamedNoteIdent elf32le sampleTwoNoteSections 132 52 i ∧
      entryNoteMatches elf32le sampleTwoNoteSections 132 i :=
  ((C18_note_scan_exact elf32le sampleTwoNoteSections 132 52 3).1 true (by decide)).mp rfl

end Dgsh
